import Mathlib

/-!
Verification of the incident-prioritisation core: alert ingestion and
technique-identifier extraction (modules/alerts.py), graph-backed incident
correlation (modules/ontology.py) and the lexical retrieval index
(modules/rag.py).

Python strings are embedded as lists of Unicode code points (`PyStr`), so
that character-level operations (strip, upper, replace, split) are explicit
and executable.  Case mapping is modelled on the ASCII range, which covers
every identifier and literal these modules manipulate.

The file is organised as: all definitions (the embedding), then all
theorems.
-/

namespace Spec2Proof

/-! ## Python strings -/

/-- A Python string, as its list of Unicode code points. -/
abbrev PyStr := List Nat

/-- Code points of a Lean string literal; used to write concrete inputs. -/
def pyStr (s : String) : PyStr := s.data.map Char.toNat

/-- Whitespace recognised by Python `str.strip` (ASCII range: space, \t, \n,
\r, \v, \f). -/
def isSpace (n : Nat) : Bool := n == 32 || n == 9 || n == 10 || n == 13 || n == 11 || n == 12

/-- Python `s.strip()`: drop leading and trailing whitespace. -/
def pyStrip (l : PyStr) : PyStr :=
  ((l.dropWhile isSpace).reverse.dropWhile isSpace).reverse

/-- Upper-casing of one code point, on the ASCII range (models `str.upper`
for the identifiers this program manipulates). -/
def upCode (n : Nat) : Nat := if 97 ≤ n ∧ n ≤ 122 then n - 32 else n

/-- Lower-casing of one code point, on the ASCII range (models `str.lower`
and SPARQL `LCASE`). -/
def lowCode (n : Nat) : Nat := if 65 ≤ n ∧ n ≤ 90 then n + 32 else n

/-- One step of `.replace(".", "_")`: 46 is `.`, 95 is `_`. -/
def replDot (n : Nat) : Nat := if n = 46 then 95 else n

/-- Python `s.upper()` (ASCII model). -/
def pyUpper (l : PyStr) : PyStr := l.map upCode

/-- Python `s.lower()` / SPARQL `LCASE` (ASCII model). -/
def pyLower (l : PyStr) : PyStr := l.map lowCode

/-- Python `s.replace(".", "_")`. -/
def pyReplaceDot (l : PyStr) : PyStr := l.map replDot

/-- The code-point map applied by both normalizers after stripping. -/
def normChar (n : Nat) : Nat := replDot (upCode n)

/-- Suffix after the last occurrence of `c` (Python `s.split(c)[-1]`,
equally `s.rsplit(c, 1)[-1]`); the whole list when `c` does not occur. -/
def afterLast (c : Nat) : List Nat → List Nat
  | [] => []
  | x :: xs => if c ∈ xs then afterLast c xs else if x = c then xs else x :: xs

/-- Suffix after the first occurrence of `c`; empty when `c` does not occur
(SPARQL `STRAFTER` with a one-character separator). -/
def afterFirst (c : Nat) : List Nat → List Nat
  | [] => []
  | x :: xs => if x = c then xs else afterFirst c xs

/-- Elements before the first occurrence of `c`. -/
def beforeFirst (c : Nat) : List Nat → List Nat
  | [] => []
  | x :: xs => if x = c then [] else x :: beforeFirst c xs

/-- A list whose ends carry no whitespace. -/
def CleanEnds (l : PyStr) : Prop :=
  (∀ x ∈ l.head?, isSpace x = false) ∧ (∀ x ∈ l.getLast?, isSpace x = false)

/-- Python `sorted` on strings: lexicographic comparison of code points. -/
def lexLe : PyStr → PyStr → Bool
  | [], _ => true
  | _ :: _, [] => false
  | a :: as, b :: bs => if a < b then true else if b < a then false else lexLe as bs

def lexLeRel (a b : PyStr) : Prop := lexLe a b = true

instance : DecidableRel lexLeRel := fun a b => inferInstanceAs (Decidable (lexLe a b = true))

/-- Python `sorted` (a stable sort; modelled by insertion sort). -/
def pySortedStrs (l : List PyStr) : List PyStr := l.insertionSort lexLeRel

/-! ## modules/alerts.py — identifier normalisation -/

/-- alerts.py `_normalize_tid`: `tid.strip().upper().replace(".", "_")`. -/
def alertsNormalizeTid (tid : PyStr) : PyStr :=
  pyReplaceDot (pyUpper (pyStrip tid))

/-! ## modules/ontology.py — knowledge graph and incident correlation

An rdflib graph is embedded as a finite list of (subject, predicate,
object) triples whose nodes are their string forms (`str(node)`); rdflib's
`objects`/`subjects` are triple filters.  The primary SPARQL query of
`get_incidents_by_tech` is embedded by its algebraic reading: rows are the
incidents joined with the two OPTIONAL technique patterns, `COALESCE`
selects the direct technique whenever one is bound, and the FILTER compares
the two `STRAFTER`-extracted fragments case-insensitively against the
requested identifiers.  The fallback path re-traverses the graph and
compares fully normalized identifiers. -/

abbrev Triple := PyStr × PyStr × PyStr

abbrev RGraph := List Triple

/-- rdflib `g.objects(s, p)`. -/
def gObjects (g : RGraph) (s p : PyStr) : List PyStr :=
  (g.filter fun t => decide (t.1 = s ∧ t.2.1 = p)).map fun t => t.2.2

/-- rdflib `g.subjects(p, o)`. -/
def gSubjects (g : RGraph) (p o : PyStr) : List PyStr :=
  (g.filter fun t => decide (t.2.1 = p ∧ t.2.2 = o)).map fun t => t.1

def rdfType : PyStr := pyStr "http://www.w3.org/1999/02/22-rdf-syntax-ns#type"

def verisIncident : PyStr := pyStr "http://example.org/veris#Incident"

def bridgeInvolvesTechnique : PyStr := pyStr "http://example.org/bridge#involvesTechnique"

def bridgeHasAction : PyStr := pyStr "http://example.org/bridge#hasAction"

def bridgeRelatesToTechnique : PyStr := pyStr "http://example.org/bridge#relatesToTechnique"

/-- ontology.py `lastfrag`: final fragment of an IRI (after `#`, else after
the last `/`, else the value itself).  35 is `#`, 47 is `/`. -/
def lastfrag (iri : PyStr) : PyStr :=
  if 35 ∈ iri then afterLast 35 iri
  else if 47 ∈ iri then afterLast 47 iri
  else iri

/-- ontology.py `_normalize_tid`: empty stays empty; otherwise strip,
reduce to the IRI fragment, upper-case, replace `.` by `_`. -/
def ontologyNormalizeTid (value : PyStr) : PyStr :=
  if value = [] then []
  else pyReplaceDot (pyUpper (lastfrag (pyStrip value)))

/-- The incidents enumerated by both paths
(`?incident a veris:Incident`, resp. `g.subjects(RDF.type, VERIS.Incident)`). -/
def incidentNodes (g : RGraph) : List PyStr := gSubjects g rdfType verisIncident

/-- Direct `bridge:involvesTechnique` objects of an incident. -/
def directTechs (g : RGraph) (inc : PyStr) : List PyStr :=
  gObjects g inc bridgeInvolvesTechnique

/-- Techniques reached through `bridge:hasAction / bridge:relatesToTechnique`. -/
def viaTechs (g : RGraph) (inc : PyStr) : List PyStr :=
  (gObjects g inc bridgeHasAction).flatMap fun a => gObjects g a bridgeRelatesToTechnique

/-- ontology.py `_techs_from_incident`: normalized direct techniques plus
normalized via-action techniques (the Python `set` is kept as a list; only
membership is ever used). -/
def techsFromIncident (g : RGraph) (incident : PyStr) : List PyStr :=
  (gObjects g incident bridgeInvolvesTechnique).map ontologyNormalizeTid
    ++ (gObjects g incident bridgeHasAction).flatMap fun a =>
        (gObjects g a bridgeRelatesToTechnique).map ontologyNormalizeTid

/-- `{ _normalize_tid(t) for t in tech_ids if t }`. -/
def normalizedQueryTids (techIds : List PyStr) : List PyStr :=
  ((techIds.filter fun t => decide (t ≠ [])).map ontologyNormalizeTid).dedup

/-- ontology.py `get_incidents_by_tech`, fallback branch: scan every
incident, normalize its direct and derived techniques in Python, keep those
whose technique set meets the query set, and return them sorted
(`sorted(incidents_set)`). -/
def fallbackScanIncidents (g : RGraph) (tidsNorm : List PyStr) : List PyStr :=
  pySortedStrs (((incidentNodes g).filter fun inc =>
    (techsFromIncident g inc).any fun t => decide (t ∈ tidsNorm)).dedup)

/-- `COALESCE(?t1, ?t2)` over the rows produced by the two OPTIONAL
patterns: when at least one direct technique is bound, every row binds
`?t1`, so only direct techniques are ever tested; otherwise the via-action
techniques are. -/
def coalescedTechs (g : RGraph) (inc : PyStr) : List PyStr :=
  if directTechs g inc = [] then viaTechs g inc else directTechs g inc

/-- `REPLACE(STRAFTER(STR(?t), "#"), "\\.", "_")`. -/
def sparqlNormH (t : PyStr) : PyStr := pyReplaceDot (afterFirst 35 t)

/-- `REPLACE(STRAFTER(STR(?t), "/"), "\\.", "_")`. -/
def sparqlNormS (t : PyStr) : PyStr := pyReplaceDot (afterFirst 47 t)

/-- `FILTER( LCASE(?h) = LCASE(?tid) || LCASE(?s) = LCASE(?tid) )`. -/
def sparqlFilterMatch (t tid : PyStr) : Bool :=
  decide (pyLower (sparqlNormH t) = pyLower tid)
    || decide (pyLower (sparqlNormS t) = pyLower tid)

/-- ontology.py `get_incidents_by_tech`, primary branch: the SPARQL query
`SELECT DISTINCT ?incident`, read through the SPARQL algebra. -/
def primaryQueryIncidents (g : RGraph) (tidsNorm : List PyStr) : List PyStr :=
  ((incidentNodes g).filter fun inc =>
    (coalescedTechs g inc).any fun t =>
      tidsNorm.any fun tid => sparqlFilterMatch t tid).dedup

/-- ontology.py `get_incidents_by_tech`: empty input short-circuits;
otherwise the primary query's rows are returned when non-empty, and the
fallback scan otherwise.  (A raising primary path also lands in the
fallback branch; the embedding's primary path is total.) -/
def getIncidentsByTech (g : RGraph) (techIds : List PyStr) : List PyStr :=
  if techIds = [] then []
  else
    let tn := normalizedQueryTids techIds
    let prim := primaryQueryIncidents g tn
    if prim ≠ [] then prim else fallbackScanIncidents g tn

/-- A technique node in `#`-fragment IRI form: exactly one `#`, and a
fragment free of `#`, `/` and whitespace. -/
def WellFormedTech (t : PyStr) : Prop :=
  ∃ p f, t = p ++ 35 :: f ∧ 35 ∉ p ∧ 35 ∉ f ∧ 47 ∉ f ∧ ∀ c ∈ f, isSpace c = false

/-- Decidable check for `WellFormedTech`. -/
def wfTechB (t : PyStr) : Bool :=
  decide (35 ∈ t) && decide (35 ∉ afterFirst 35 t) && decide (47 ∉ afterFirst 35 t)
    && (afterFirst 35 t).all fun c => !isSpace c

/-- A graph on which the primary SPARQL path and the fallback scan
disagree: incident `v#i1` carries a non-matching direct technique, so
`COALESCE(?t1, ?t2)` never exposes its matching via-action technique to the
filter, while the fallback scan unions direct and derived techniques. -/
def cexGraph : RGraph :=
  [ (pyStr "v#i1", rdfType, verisIncident),
    (pyStr "v#i1", bridgeInvolvesTechnique, pyStr "b#T1111"),
    (pyStr "v#i1", bridgeHasAction, pyStr "a1"),
    (pyStr "a1", bridgeRelatesToTechnique, pyStr "b#T1190"),
    (pyStr "v#i2", rdfType, verisIncident),
    (pyStr "v#i2", bridgeInvolvesTechnique, pyStr "b#T1190") ]

/-- A one-incident graph used to witness the amended equivalence. -/
def witGraph : RGraph :=
  [ (pyStr "v#i1", rdfType, verisIncident),
    (pyStr "v#i1", bridgeInvolvesTechnique, pyStr "b#T1190") ]

/-! ## modules/rag.py — lexical retrieval index

Scores are kept exactly: a score is `num / sqrt(denSq)` with `num` the
bag-of-words dot product and `denSq` the product of the two squared norms.
Positivity tests and comparisons are decided in exact arithmetic; this is
the ideal-real reading of the float computation (the dot product of
nonnegative counts has an exactly representable sign, which is all the
claims below depend on). -/

/-- A character matched by `TOKEN_RX = [\w-]+` (ASCII model of `\w`,
plus the hyphen 45). -/
def isWordHyphen (n : Nat) : Bool :=
  (48 ≤ n && n ≤ 57) || (65 ≤ n && n ≤ 90) || (97 ≤ n && n ≤ 122) || n == 95 || n == 45

/-- `TOKEN_RX.findall(text)`: maximal runs of word/hyphen characters. -/
def tokenRuns : PyStr → List PyStr
  | [] => []
  | x :: xs =>
    if isWordHyphen x
    then (x :: xs.takeWhile isWordHyphen) :: tokenRuns (xs.dropWhile isWordHyphen)
    else tokenRuns xs
termination_by l => l.length
decreasing_by
  · simpa using Nat.lt_succ_of_le (List.dropWhile_sublist isWordHyphen (l := xs)).length_le
  · simp

/-- rag.py `_tokenize`: find the runs, lower-case each. -/
def tokenize (text : PyStr) : List PyStr := (tokenRuns text).map pyLower

/-- One `Counter` update; pairs are kept in first-occurrence order like a
Python dict. -/
def counterAdd (m : List (PyStr × Nat)) (k : PyStr) : List (PyStr × Nat) :=
  match m with
  | [] => [(k, 1)]
  | (k0, v) :: rest => if k0 = k then (k0, v + 1) :: rest else (k0, v) :: counterAdd rest k

/-- `Counter(tokens)`. -/
def counterOf (toks : List PyStr) : List (PyStr × Nat) := toks.foldl counterAdd []

/-- `vec_b[token]` with 0 for an absent key (the source guards with
`token in vec_b`, which is the same sum). -/
def counterGet (vec : List (PyStr × Nat)) (k : PyStr) : Nat :=
  match vec.find? fun kv => decide (kv.1 = k) with
  | some kv => kv.2
  | none => 0

/-- The dot product accumulated by `_cosine`. -/
def dotProduct (a b : List (PyStr × Nat)) : Nat :=
  (a.map fun kv => kv.2 * counterGet b kv.1).sum

/-- rag.py `_norm`, squared: `math.sqrt(s) or 1.0` is `sqrt s` with the
all-zero vector mapped to 1, so its square is `if s = 0 then 1 else s`. -/
def normSqOf (vec : List (PyStr × Nat)) : Nat :=
  let s := (vec.map fun kv => kv.2 * kv.2).sum
  if s = 0 then 1 else s

/-- An exact retrieval score `num / sqrt denSq` (`denSq` is always
positive). -/
structure RagScore where
  num : Nat
  denSq : Nat
deriving DecidableEq, Repr

/-- The float literal `0.0`. -/
def zeroScore : RagScore := ⟨0, 1⟩

/-- rag.py `_cosine`: zero on an empty vector, zero when no term is
shared, otherwise the dot product over the product of norms
(`sqrt a * sqrt b = sqrt (a*b)`). -/
def cosineScore (va : List (PyStr × Nat)) (nsqA : Nat)
    (vb : List (PyStr × Nat)) (nsqB : Nat) : RagScore :=
  if va = [] ∨ vb = [] then zeroScore
  else
    let d := dotProduct va vb
    if d = 0 then zeroScore else ⟨d, nsqA * nsqB⟩

/-- `sim > 0`: with positive denominators the sign is the numerator's. -/
def scorePos (s : RagScore) : Bool := decide (0 < s.num)

/-- `a ≥ b` on scores: `a.num / sqrt a.denSq ≥ b.num / sqrt b.denSq`
decided by cross-multiplying squares (all quantities nonnegative). -/
def scoreGe (a b : RagScore) : Bool :=
  decide (b.num * b.num * a.denSq ≤ a.num * a.num * b.denSq)

/-- Elements before the last occurrence of `c`; the whole list when `c` is
absent (Python `l.rsplit(c, 1)[0]`). -/
def beforeLast (c : Nat) (l : List Nat) : List Nat :=
  if c ∈ l then (afterFirst c l.reverse).reverse else l

/-- rag.py `_snippet` with the default limit 260: short texts unchanged,
long texts cut at the last space of the 260-character prefix, with an
ellipsis (8230) appended. -/
def pySnippet (text : PyStr) : PyStr :=
  if text.length ≤ 260 then text
  else beforeLast 32 (text.take 260) ++ [8230]

/-- An input document: a dict with optional "title" and "content" keys. -/
structure RagDoc where
  title? : Option PyStr
  content? : Option PyStr
deriving DecidableEq

/-- `d.get(k) or default`: `None` and the empty string are falsy. -/
def orDefault (v : Option PyStr) (d : PyStr) : PyStr :=
  match v with
  | none => d
  | some s => if s = [] then d else s

/-- One slot of the index: `self.docs[i]`, `self.vectors[i]`,
`self.norms[i]` (squared). -/
structure RagEntry where
  title : PyStr
  content : PyStr
  vec : List (PyStr × Nat)
  normSq : Nat
deriving DecidableEq

/-- rag.py `SimpleRAG.__init__`. -/
def mkEntries (documents : List RagDoc) : List RagEntry :=
  documents.map fun doc =>
    let title := pyStrip (orDefault doc.title? (pyStr "Section"))
    let content := pyStrip (orDefault doc.content? [])
    let vec := counterOf (tokenize content)
    ⟨title, content, vec, normSqOf vec⟩

/-- One search result (`RagResult.__dict__`). -/
structure RagResult where
  title : PyStr
  content : PyStr
  snippet : PyStr
  score : RagScore
deriving DecidableEq

/-- Stable descending insertion: a new element goes after every element
whose score is at least its own (Python's stable `sort(reverse=True)`). -/
def insertDesc (x : RagResult) : List RagResult → List RagResult
  | [] => [x]
  | y :: ys => if scoreGe y.score x.score then y :: insertDesc x ys else x :: y :: ys

/-- `scored.sort(key=lambda r: r.score, reverse=True)`. -/
def sortDesc (l : List RagResult) : List RagResult :=
  l.foldl (fun acc x => insertDesc x acc) []

/-- Python `l[:k]` for an `int` bound (negative bounds count from the
end). -/
def pySliceTo (k : Int) (l : List RagResult) : List RagResult :=
  if k < 0 then l.take (l.length - (-k).toNat) else l.take k.toNat

/-- `top_k or 1`: the integer 0 is falsy. -/
def effTopK (k : Int) : Int := if k = 0 then 1 else k

/-- The query vector, for stating C7's "no positive similarity" premise. -/
def ragQueryVec (query : PyStr) : List (PyStr × Nat) := counterOf (tokenize query)

/-- The loop of `search`: keep a result for every document with strictly
positive similarity. -/
def scoredResults (entries : List RagEntry) (query : PyStr) : List RagResult :=
  entries.filterMap fun e =>
    let sim := cosineScore (ragQueryVec query) (normSqOf (ragQueryVec query)) e.vec e.normSq
    if scorePos sim then some ⟨e.title, e.content, pySnippet e.content, sim⟩ else none

/-- `if not scored and self.docs:` — append the first document with score
0.0 when nothing scored positively. -/
def fallbackPad (scored : List RagResult) (entries : List RagEntry) : List RagResult :=
  match scored, entries with
  | [], e0 :: _ => [⟨e0.title, e0.content, pySnippet e0.content, zeroScore⟩]
  | s, _ => s

/-- rag.py `SimpleRAG.search` on a built index. -/
def ragSearch (entries : List RagEntry) (query : PyStr) (topK : Int) : List RagResult :=
  if entries = [] then []
  else pySliceTo (effTopK topK) (sortDesc (fallbackPad (scoredResults entries query) entries))

/-- `SimpleRAG(documents).search(query, top_k)`. -/
def simpleRAGSearch (documents : List RagDoc) (query : PyStr) (topK : Int) : List RagResult :=
  ragSearch (mkEntries documents) query topK

/-- The word-boundary reading of the snippet claim: either the text is
returned whole, or the character of the source text that immediately
follows the kept prefix is a space (so the cut does not fall inside a
word). -/
def snippetRespectsWords (text : PyStr) : Prop :=
  text.length ≤ 260 ∨ text.get? ((pySnippet text).length - 1) = some 32

/-! ## modules/alerts.py — JSON values, ingestion and extraction

`JVal` embeds the values `json.loads` can produce.  Integer literals are
kept as `Int` (Python `int`); non-integer numerals keep their source text
(their value is never computed by this program).  Python exceptions are
explicit: the extraction pipeline returns `Except PyErr`. -/

inductive JVal where
  | null : JVal
  | bool (b : Bool) : JVal
  | int (i : Int) : JVal
  | num (raw : PyStr) : JVal
  | str (s : PyStr) : JVal
  | arr (items : List JVal) : JVal
  | obj (fields : List (PyStr × JVal)) : JVal

inductive PyErr where
  | attributeError : PyErr
  | typeError : PyErr
  | jsonDecodeError : PyErr
deriving DecidableEq

/-- Dict lookup; a later duplicate key wins, as in a Python dict built by
`json.loads`. -/
def objLookup (fields : List (PyStr × JVal)) (k : PyStr) : Option JVal :=
  (fields.reverse.find? fun kv => decide (kv.1 = k)).map fun kv => kv.2

def objHasKey (fields : List (PyStr × JVal)) (k : PyStr) : Bool :=
  fields.any fun kv => decide (kv.1 = k)

/-- Python truthiness of a JSON value.  (For non-integer numerals: falsy
exactly when the numeral is zero-valued; numerals in exponent form are not
produced by this program's inputs.) -/
def pyTruthy : JVal → Bool
  | .null => false
  | .bool b => b
  | .int i => decide (i ≠ 0)
  | .num raw => !(raw.all fun c => c == 48 || c == 46 || c == 45)
  | .str s => decide (s ≠ [])
  | .arr xs => !xs.isEmpty
  | .obj kvs => !kvs.isEmpty

/-- `v or {}` (used as `node.get(k) or {}`): a missing or falsy value is
replaced by the empty dict. -/
def orEmptyObj (v : Option JVal) : JVal :=
  match v with
  | some x => if pyTruthy x then x else .obj []
  | none => .obj []

/-- `v.get(k)`: raises `AttributeError` when `v` is not a dict. -/
def pyGetAttr (v : JVal) (k : PyStr) : Except PyErr (Option JVal) :=
  match v with
  | .obj kvs => .ok (objLookup kvs k)
  | _ => .error .attributeError

/-- `for x in v`: lists yield items, dicts their keys, strings their
characters; other (truthy) values raise `TypeError`. -/
def pyIterItems : JVal → Except PyErr (List JVal)
  | .arr xs => .ok xs
  | .obj kvs => .ok (kvs.map fun kv => .str kv.1)
  | .str s => .ok (s.map fun c => .str [c])
  | _ => .error .typeError

/-- `str(int)`. -/
def intRepr (i : Int) : PyStr :=
  if i < 0 then 45 :: (Nat.toDigits 10 (-i).toNat).map Char.toNat
  else (Nat.toDigits 10 i.toNat).map Char.toNat

mutual

/-- Python `repr` of a JSON value (strings quoted with `'`; faithful for
quote- and escape-free content, the only kind this program stringifies). -/
def pyRepr : JVal → PyStr
  | .null => pyStr "None"
  | .bool true => pyStr "True"
  | .bool false => pyStr "False"
  | .int i => intRepr i
  | .num raw => raw
  | .str s => 39 :: (s ++ [39])
  | .arr xs => 91 :: (pyReprList xs ++ [93])
  | .obj kvs => 123 :: (pyReprObj kvs ++ [125])

def pyReprList : List JVal → PyStr
  | [] => []
  | [x] => pyRepr x
  | x :: y :: rest => pyRepr x ++ [44, 32] ++ pyReprList (y :: rest)

def pyReprObj : List (PyStr × JVal) → PyStr
  | [] => []
  | [kv] => 39 :: (kv.1 ++ [39, 58, 32]) ++ pyRepr kv.2
  | kv :: kv2 :: rest => 39 :: (kv.1 ++ [39, 58, 32]) ++ pyRepr kv.2 ++ [44, 32]
      ++ pyReprObj (kv2 :: rest)

end

/-- Python `str()` of a JSON value (strings unquoted, containers as
`repr`). -/
def pyToStr : JVal → PyStr
  | .str s => s
  | v => pyRepr v

mutual

/-- alerts.py `_iter_json`: depth-first enumeration of every dict node
(dicts yield themselves then their values; lists yield their items'
dicts). -/
def iterJson : JVal → List JVal
  | .obj kvs => .obj kvs :: iterJsonKVs kvs
  | .arr xs => iterJsonList xs
  | _ => []

def iterJsonList : List JVal → List JVal
  | [] => []
  | x :: xs => iterJson x ++ iterJsonList xs

def iterJsonKVs : List (PyStr × JVal) → List JVal
  | [] => []
  | kv :: rest => iterJson kv.2 ++ iterJsonKVs rest

end

/-- `\w` of the `re` module, ASCII range. -/
def isWordCode (n : Nat) : Bool :=
  (48 ≤ n && n ≤ 57) || (65 ≤ n && n ≤ 90) || (97 ≤ n && n ≤ 122) || n == 95

def isDigit (n : Nat) : Bool := 48 ≤ n && n ≤ 57

/-- The `\b` after a match: end of input or a non-word character. -/
def tidBoundaryAfter : List Nat → Bool
  | [] => true
  | c :: _ => !isWordCode c

/-- One attempted match of `TID_RX = \bT\d{4}(?:\.\d{3})?\b` (case
insensitive) at the current position, which is known to sit on a word
boundary.  Returns the matched text and the remaining input; the engine
prefers the 9-character sub-technique form and backtracks to the
5-character form when the trailing boundary fails. -/
def tidHead : List Nat → Option (PyStr × List Nat)
  | t :: d1 :: d2 :: d3 :: d4 :: rest =>
    if (t == 84 || t == 116) && isDigit d1 && isDigit d2 && isDigit d3 && isDigit d4 then
      match rest with
      | 46 :: e1 :: e2 :: e3 :: rest2 =>
        if isDigit e1 && isDigit e2 && isDigit e3 && tidBoundaryAfter rest2
        then some ([t, d1, d2, d3, d4, 46, e1, e2, e3], rest2)
        else if tidBoundaryAfter rest then some ([t, d1, d2, d3, d4], rest) else none
      | _ => if tidBoundaryAfter rest then some ([t, d1, d2, d3, d4], rest) else none
    else none
  | _ => none

/-- The scan loop of `findall`: fuelled left-to-right scan; `prevIsWord`
tracks whether the previous character was a word character (for `\b`). -/
def tidScanF : Nat → Bool → List Nat → List PyStr
  | 0, _, _ => []
  | _ + 1, _, [] => []
  | fuel + 1, prevIsWord, c :: cs =>
    if prevIsWord then tidScanF fuel (isWordCode c) cs
    else
      match tidHead (c :: cs) with
      | some (m, rest) => m :: tidScanF fuel true rest
      | none => tidScanF fuel (isWordCode c) cs

/-- `TID_RX.findall(text)`. -/
def tidFindall (text : PyStr) : List PyStr := tidScanF text.length false text

/-- `set.add` on the insertion-ordered model of a Python `set` (only
membership and the final sorted output are ever observed). -/
def setAdd (s : List PyStr) (x : PyStr) : List PyStr := if x ∈ s then s else s ++ [x]

/-- One step of the `rule.mitre.id` list loop: only `str` and `int` values
(Python `bool` is an `int`) are stringified and normalized; every other
value is skipped. -/
def collectIdListStep (a : List PyStr) (v : JVal) : List PyStr :=
  match v with
  | .str s => setAdd a (alertsNormalizeTid s)
  | .int i => setAdd a (alertsNormalizeTid (intRepr i))
  | .bool b => setAdd a (alertsNormalizeTid (pyToStr (.bool b)))
  | _ => a

/-- One step of the `fields.*`/`data.*` candidate-list loop: every value is
stringified and normalized, with no type guard. -/
def collectAliasListStep (a : List PyStr) (v : JVal) : List PyStr :=
  setAdd a (alertsNormalizeTid (pyToStr v))

/-- The `rule.mitre.technique[]` / `rule.mitre.techniques[]` loop:
`technique.get("id") if isinstance(technique, dict) else technique`, then
the same `str`/`int` guard. -/
def collectTechArr (acc : List PyStr) (arrOpt : Option JVal) : List PyStr :=
  match arrOpt with
  | some (.arr items) =>
    items.foldl (fun a technique =>
      let tid : Option JVal :=
        match technique with
        | .obj tkvs => objLookup tkvs (pyStr "id")
        | v => some v
      match tid with
      | some (.str s) => setAdd a (alertsNormalizeTid s)
      | some (.int i) => setAdd a (alertsNormalizeTid (intRepr i))
      | some (.bool b) => setAdd a (alertsNormalizeTid (pyToStr (.bool b)))
      | _ => a) acc
  | _ => acc

/-- The free-text scan over `message` / `description` / `full_log`. -/
def collectText (acc : List PyStr) (vOpt : Option JVal) : List PyStr :=
  match vOpt with
  | some (.str s) => (tidFindall s).foldl (fun a m => setAdd a (alertsNormalizeTid m)) acc
  | _ => acc

/-- The Python `or` between the two alias candidates: the second lookup
only runs (and can only raise) when the first produced a falsy value. -/
def aliasOrFallback (skvs : List (PyStr × JVal)) (cand1 : Option JVal) :
    Except PyErr (Option JVal) :=
  match cand1 with
  | some v =>
    if pyTruthy v then .ok (some v)
    else pyGetAttr ((objLookup skvs (pyStr "mitre")).getD (.obj [])) (pyStr "id")
  | none => pyGetAttr ((objLookup skvs (pyStr "mitre")).getD (.obj [])) (pyStr "id")

/-- The `fields.*` / `data.*` alias lookup:
`sub.get("rule", {}).get("mitre", {}).get("id") or sub.get("mitre", {}).get("id")`,
then a string candidate is normalized and a list candidate is stringified
element-wise (`_normalize_tid(str(value))` with no type guard). -/
def collectAlias (acc : List PyStr) (subOpt : Option JVal) : Except PyErr (List PyStr) :=
  match subOpt with
  | some (.obj skvs) =>
    match pyGetAttr ((objLookup skvs (pyStr "rule")).getD (.obj [])) (pyStr "mitre") with
    | .error e => .error e
    | .ok rm =>
      match pyGetAttr (rm.getD (.obj [])) (pyStr "id") with
      | .error e => .error e
      | .ok cand1 =>
        match aliasOrFallback skvs cand1 with
        | .error e => .error e
        | .ok (some (.str s)) => .ok (setAdd acc (alertsNormalizeTid s))
        | .ok (some (.arr vs)) => .ok (vs.foldl collectAliasListStep acc)
        | .ok _ => .ok acc
  | _ => .ok acc

/-- The `rule.mitre.id` branch for one node. -/
def collectIds (acc : List PyStr) (idsOpt : Option JVal) : List PyStr :=
  match idsOpt with
  | some (.str s) => setAdd acc (alertsNormalizeTid s)
  | some (.arr vs) => vs.foldl collectIdListStep acc
  | _ => acc

/-- alerts.py `_collect_tids_from_any`, per dict node.  (`mitre`, bound
once in the source, appears as the repeated pure expression
`orEmptyObj mitreOpt`.) -/
def collectNode (acc : List PyStr) (node : JVal) : Except PyErr (List PyStr) :=
  match node with
  | .obj kvs =>
    match pyGetAttr (orEmptyObj (objLookup kvs (pyStr "rule"))) (pyStr "mitre") with
    | .error e => .error e
    | .ok mitreOpt =>
      match pyGetAttr (orEmptyObj mitreOpt) (pyStr "id") with
      | .error e => .error e
      | .ok idsOpt =>
        match pyGetAttr (orEmptyObj mitreOpt) (pyStr "technique") with
        | .error e => .error e
        | .ok techOpt =>
          match pyGetAttr (orEmptyObj mitreOpt) (pyStr "techniques") with
          | .error e => .error e
          | .ok techsOpt =>
            match collectAlias
                (collectText (collectText (collectText
                  (collectTechArr (collectTechArr (collectIds acc idsOpt) techOpt) techsOpt)
                  (objLookup kvs (pyStr "message")))
                  (objLookup kvs (pyStr "description")))
                  (objLookup kvs (pyStr "full_log")))
                (objLookup kvs (pyStr "fields")) with
            | .error e => .error e
            | .ok acc7 => collectAlias acc7 (objLookup kvs (pyStr "data"))
  | _ => .ok acc

/-- alerts.py `_collect_tids_from_any`. -/
def collectTidsFromAny (obj : JVal) : Except PyErr (List PyStr) :=
  (iterJson obj).foldlM collectNode []

/-- `extend_unique` of `extract_tech_ids_universal` applied to one record:
collect that record's identifiers and append the new ones. -/
def extendUniqueFromRecord (acc : List PyStr) (src : JVal) : Except PyErr (List PyStr) :=
  match src with
  | .obj _ =>
    match collectTidsFromAny src with
    | .error e => .error e
    | .ok s => .ok (s.foldl setAdd acc)
  | _ => .ok acc

/-- The loop over `obj["_hits_sources"] or []` / `obj["_ndjson"] or []`. -/
def extractFromRecords (v : JVal) : Except PyErr (List PyStr) :=
  match (if pyTruthy v then pyIterItems v else .ok []) with
  | .error e => .error e
  | .ok items => items.foldlM extendUniqueFromRecord []

/-- The branch dispatch of `extract_tech_ids_universal`, before sorting. -/
def extractRawTids (obj : JVal) : Except PyErr (List PyStr) :=
  match obj with
  | .obj kvs =>
    if objHasKey kvs (pyStr "_hits_sources") then
      match objLookup kvs (pyStr "_hits_sources") with
      | some v => extractFromRecords v
      | none => pure []
    else if objHasKey kvs (pyStr "_ndjson") then
      match objLookup kvs (pyStr "_ndjson") with
      | some v => extractFromRecords v
      | none => pure []
    else collectTidsFromAny (.obj kvs)
  | .arr items => items.foldlM extendUniqueFromRecord []
  | _ => pure []

/-- alerts.py `extract_tech_ids_universal`: the collected unique
identifiers, sorted. -/
def extractTechIdsUniversal (obj : JVal) : Except PyErr (List PyStr) :=
  (extractRawTids obj).map pySortedStrs

/-! ### json.loads and load_wazuh_alerts_any -/

/-- JSON insignificant whitespace. -/
def jsonWsSkip (s : List Nat) : List Nat :=
  s.dropWhile fun c => c == 32 || c == 9 || c == 10 || c == 13

/-- String body after the opening quote; standard escapes and `\uXXXX`
(surrogate pairing not modelled; no input of this program uses it). -/
def parseJStr : List Nat → Option (PyStr × List Nat)
  | [] => none
  | 34 :: rest => some ([], rest)
  | 92 :: 117 :: h1 :: h2 :: h3 :: h4 :: rest =>
    let hv : Nat → Option Nat := fun h =>
      if 48 ≤ h ∧ h ≤ 57 then some (h - 48)
      else if 97 ≤ h ∧ h ≤ 102 then some (h - 87)
      else if 65 ≤ h ∧ h ≤ 70 then some (h - 55)
      else none
    match hv h1, hv h2, hv h3, hv h4 with
    | some a, some b, some c, some d =>
      (parseJStr rest).map fun (s, r) => (((a * 16 + b) * 16 * 16 + c * 16 + d) :: s, r)
    | _, _, _, _ => none
  | 92 :: e :: rest =>
    let ev : Option Nat :=
      if e = 34 then some 34 else if e = 92 then some 92 else if e = 47 then some 47
      else if e = 98 then some 8 else if e = 102 then some 12 else if e = 110 then some 10
      else if e = 114 then some 13 else if e = 116 then some 9 else none
    match ev with
    | some c => (parseJStr rest).map fun (s, r) => (c :: s, r)
    | none => none
  | c :: rest => (parseJStr rest).map fun (s, r) => (c :: s, r)

def digitsToNat (ds : List Nat) : Nat := ds.foldl (fun a d => a * 10 + (d - 48)) 0

/-- `[eE][+-]?digits`, returned as consumed text. -/
def parseExpPart (s : List Nat) : Option (List Nat × List Nat) :=
  match s with
  | e :: r =>
    if e == 101 || e == 69 then
      let sgn : List Nat × List Nat :=
        match r with
        | 43 :: rr => ([43], rr)
        | 45 :: rr => ([45], rr)
        | _ => ([], r)
      let xs := sgn.2.takeWhile isDigit
      if xs = [] then none else some (e :: (sgn.1 ++ xs), sgn.2.dropWhile isDigit)
    else none
  | [] => none

/-- A JSON numeral: an `Int` when it is a plain integer, otherwise the
numeral's text. -/
def parseJNum (s : List Nat) : Option (JVal × List Nat) :=
  let negPre : List Nat × List Nat :=
    match s with
    | 45 :: r => ([45], r)
    | _ => ([], s)
  let ds := negPre.2.takeWhile isDigit
  let s2 := negPre.2.dropWhile isDigit
  if ds = [] then none
  else if 1 < ds.length ∧ ds.head? = some 48 then none
  else
    match s2 with
    | 46 :: r =>
      let fs := r.takeWhile isDigit
      if fs = [] then none
      else
        let s3 := r.dropWhile isDigit
        match parseExpPart s3 with
        | some (et, s4) => some (.num (negPre.1 ++ ds ++ 46 :: (fs ++ et)), s4)
        | none => some (.num (negPre.1 ++ ds ++ 46 :: fs), s3)
    | _ =>
      match parseExpPart s2 with
      | some (et, s3) => some (.num (negPre.1 ++ ds ++ et), s3)
      | none =>
        some (.int (if negPre.1 = [] then (digitsToNat ds : Int) else -(digitsToNat ds : Int)), s2)

mutual

/-- A fuelled JSON value parser (the fuel, one unit per nesting level and
per aggregate member, is amply covered by the input length). -/
def parseJVal : Nat → List Nat → Option (JVal × List Nat)
  | 0, _ => none
  | fuel + 1, s =>
    match jsonWsSkip s with
    | 110 :: 117 :: 108 :: 108 :: rest => some (.null, rest)
    | 116 :: 114 :: 117 :: 101 :: rest => some (.bool true, rest)
    | 102 :: 97 :: 108 :: 115 :: 101 :: rest => some (.bool false, rest)
    | 34 :: rest => (parseJStr rest).map fun (str, r) => (.str str, r)
    | 91 :: rest =>
      (match jsonWsSkip rest with
       | 93 :: r2 => some (.arr [], r2)
       | r => parseJArrElems fuel r [])
    | 123 :: rest =>
      (match jsonWsSkip rest with
       | 125 :: r2 => some (.obj [], r2)
       | r => parseJObjMembers fuel r [])
    | s2 => parseJNum s2

def parseJArrElems : Nat → List Nat → List JVal → Option (JVal × List Nat)
  | 0, _, _ => none
  | fuel + 1, s, acc =>
    match parseJVal fuel s with
    | some (v, r) =>
      (match jsonWsSkip r with
       | 44 :: r2 => parseJArrElems fuel r2 (acc ++ [v])
       | 93 :: r2 => some (.arr (acc ++ [v]), r2)
       | _ => none)
    | none => none

def parseJObjMembers : Nat → List Nat → List (PyStr × JVal) → Option (JVal × List Nat)
  | 0, _, _ => none
  | fuel + 1, s, acc =>
    match s with
    | 34 :: r =>
      (match parseJStr r with
       | some (k, r1) =>
         (match jsonWsSkip r1 with
          | 58 :: r2 =>
            (match parseJVal fuel r2 with
             | some (v, r3) =>
               (match jsonWsSkip r3 with
                | 44 :: r4 =>
                  (match jsonWsSkip r4 with
                   | 34 :: r5 => parseJObjMembers fuel (34 :: r5) (acc ++ [(k, v)])
                   | _ => none)
                | 125 :: r4 => some (.obj (acc ++ [(k, v)]), r4)
                | _ => none)
             | none => none)
          | _ => none)
       | none => none)
    | _ => none

end

/-- `json.loads`: parse one document and require only whitespace after
it. -/
def jsonLoads (txt : PyStr) : Except PyErr JVal :=
  match parseJVal (txt.length + 1) txt with
  | some (v, rest) => if jsonWsSkip rest = [] then .ok v else .error .jsonDecodeError
  | none => .error .jsonDecodeError

/-- Python `str.splitlines` (the terminators this program's inputs use:
\n, \r, \r\n, \v, \f). -/
def splitlinesAux : PyStr → PyStr → List PyStr
  | [], cur => if cur = [] then [] else [cur.reverse]
  | 13 :: 10 :: rest, cur => cur.reverse :: splitlinesAux rest []
  | c :: rest, cur =>
    if c = 10 ∨ c = 13 ∨ c = 11 ∨ c = 12 then cur.reverse :: splitlinesAux rest []
    else splitlinesAux rest (c :: cur)

def pySplitlines (l : PyStr) : List PyStr := splitlinesAux l []

/-- The argument of `load_wazuh_alerts_any`: text, or an already parsed
object (the `bytes` case, unused by the callers, is not modelled). -/
inductive LoadInput where
  | text (s : PyStr) : LoadInput
  | obj (v : JVal) : LoadInput

/-- alerts.py `load_wazuh_alerts_any`. -/
def loadWazuhAlertsAny (input : LoadInput) : Except PyErr JVal :=
  match input with
  | .obj v => .ok v
  | .text s =>
    let txt := pyStrip s
    if txt = [] then .ok (.obj [])
    else
      let lines := (pySplitlines txt).filter fun line => decide (pyStrip line ≠ [])
      if 1 < lines.length ∧ ∀ line ∈ lines, (pyStrip line).head? = some 123 then
        .ok (.obj [(pyStr "_ndjson", .arr (lines.filterMap fun line => (jsonLoads line).toOption))])
      else do
        let data ← jsonLoads txt
        match data with
        | .obj kvs =>
          match objLookup kvs (pyStr "hits") with
          | some (.obj hkvs) => do
            let hits := (objLookup hkvs (pyStr "hits")).getD (.arr [])
            let items ← pyIterItems hits
            let sources := items.filterMap fun hit =>
              match hit with
              | .obj hk =>
                (match objLookup hk (pyStr "_source") with
                 | some sv => if pyTruthy sv then some sv else none
                 | none => none)
              | _ => none
            pure (.obj [(pyStr "_hits_sources", .arr sources)])
          | _ => pure data
        | _ => pure data

/-- Whether a JSON value is a scalar (no dict/list nodes inside). -/
def isScalarJ : JVal → Bool
  | .arr _ => false
  | .obj _ => false
  | _ => true

/-- `isinstance(v, (str, int))` (Python `bool` is an `int`). -/
def isStrIntLike : JVal → Bool
  | .str _ => true
  | .int _ => true
  | .bool _ => true
  | _ => false

/-- A record carrying only `rule.mitre.id = vs`. -/
def ruleMitreIdRecord (vs : List JVal) : JVal :=
  .obj [(pyStr "rule", .obj [(pyStr "mitre", .obj [(pyStr "id", .arr vs)])])]

/-- A record carrying only `fields.mitre.id = vs` (an alias path). -/
def fieldsAliasRecord (vs : List JVal) : JVal :=
  .obj [(pyStr "fields", .obj [(pyStr "mitre", .obj [(pyStr "id", .arr vs)])])]

/-! # Theorems -/

/-! ## Character-level facts about the normalisation steps -/

theorem isSpace_true_iff (n : Nat) :
    isSpace n = true ↔ n = 32 ∨ n = 9 ∨ n = 10 ∨ n = 13 ∨ n = 11 ∨ n = 12 := by
  simp only [isSpace, Bool.or_eq_true, beq_iff_eq]
  tauto

theorem isSpace_upCode (n : Nat) : isSpace (upCode n) = isSpace n := by
  by_cases h : 97 ≤ n ∧ n ≤ 122
  · have e : upCode n = n - 32 := by simp [upCode, h]
    rw [e]
    have f1 : isSpace (n - 32) = false := by
      rw [← Bool.not_eq_true, isSpace_true_iff]; omega
    have f2 : isSpace n = false := by
      rw [← Bool.not_eq_true, isSpace_true_iff]; omega
    rw [f1, f2]
  · simp [upCode, h]

theorem isSpace_replDot (n : Nat) : isSpace (replDot n) = isSpace n := by
  by_cases h : n = 46
  · subst h
    have f1 : isSpace 95 = false := by decide
    have f2 : isSpace 46 = false := by decide
    simp [replDot, f1, f2]
  · simp [replDot, h]

theorem isSpace_normChar (n : Nat) : isSpace (normChar n) = isSpace n := by
  rw [normChar, isSpace_replDot, isSpace_upCode]

theorem normChar_normChar (n : Nat) : normChar (normChar n) = normChar n := by
  unfold normChar replDot upCode
  repeat' split
  all_goals omega

theorem normChar_eq_35_iff (n : Nat) : normChar n = 35 ↔ n = 35 := by
  unfold normChar replDot upCode
  repeat' split
  all_goals omega

theorem normChar_eq_47_iff (n : Nat) : normChar n = 47 ↔ n = 47 := by
  unfold normChar replDot upCode
  repeat' split
  all_goals omega

theorem lowCode_eq_lowCode_iff (a b : Nat) : lowCode a = lowCode b ↔ upCode a = upCode b := by
  unfold lowCode upCode
  repeat' split
  all_goals omega

theorem lowCode_eq_35_iff (n : Nat) : lowCode n = 35 ↔ n = 35 := by
  unfold lowCode
  repeat' split
  all_goals omega

theorem upCode_replDot_comm (n : Nat) : upCode (replDot n) = replDot (upCode n) := by
  unfold replDot upCode
  repeat' split
  all_goals omega

theorem upCode_normChar (n : Nat) : upCode (normChar n) = normChar n := by
  unfold normChar replDot upCode
  repeat' split
  all_goals omega

theorem replUp_eq_map (l : PyStr) : pyReplaceDot (pyUpper l) = l.map normChar := by
  unfold pyReplaceDot pyUpper
  rw [List.map_map]
  rfl

theorem alertsNormalizeTid_eq_map (tid : PyStr) :
    alertsNormalizeTid tid = (pyStrip tid).map normChar := by
  unfold alertsNormalizeTid
  exact replUp_eq_map (pyStrip tid)

theorem pyLower_eq_iff_pyUpper_eq :
    ∀ a b : PyStr, pyLower a = pyLower b ↔ pyUpper a = pyUpper b := by
  intro a
  induction a with
  | nil =>
    intro b
    cases b <;> simp [pyLower, pyUpper]
  | cons x xs ih =>
    intro b
    cases b with
    | nil => simp [pyLower, pyUpper]
    | cons y ys =>
      simp only [pyLower, pyUpper, List.map_cons, List.cons.injEq]
      exact and_congr (lowCode_eq_lowCode_iff x y) (ih ys)

/-! ## `strip` is idempotent, and commutes with space-preserving maps -/

theorem head?_dropWhile_false (p : α → Bool) (l : List α) :
    ∀ x ∈ (l.dropWhile p).head?, p x = false := by
  intro x hx
  have h := List.head?_dropWhile_not p l
  cases e : (l.dropWhile p).head? with
  | none => rw [e] at hx; simp at hx
  | some y =>
    rw [e] at hx h
    simp only [Option.mem_def, Option.some.injEq] at hx
    subst hx
    exact h

theorem dropWhile_eq_self_of_head (p : α → Bool) (l : List α)
    (h : ∀ x ∈ l.head?, p x = false) : l.dropWhile p = l := by
  cases l with
  | nil => rfl
  | cons a as =>
    have ha : p a = false := h a (by simp)
    simp [List.dropWhile_cons, ha]

theorem getLast?_dropWhile (p : α → Bool) :
    ∀ l : List α, l.dropWhile p = [] ∨ (l.dropWhile p).getLast? = l.getLast? := by
  intro l
  induction l with
  | nil => exact Or.inl rfl
  | cons a as ih =>
    by_cases hp : p a = true
    · rw [List.dropWhile_cons_of_pos hp]
      rcases ih with h0 | h1
      · exact Or.inl h0
      · cases as with
        | nil => exact Or.inl rfl
        | cons b bs =>
          right
          rw [h1]
          simp
    · rw [List.dropWhile_cons_of_neg (by simp [hp])]
      exact Or.inr rfl

theorem pyStrip_of_cleanEnds (l : PyStr) (h : CleanEnds l) : pyStrip l = l := by
  unfold pyStrip
  rw [dropWhile_eq_self_of_head _ _ h.1]
  rw [dropWhile_eq_self_of_head _ _ (by simpa using h.2)]
  exact List.reverse_reverse l

theorem cleanEnds_pyStrip (l : PyStr) : CleanEnds (pyStrip l) := by
  unfold pyStrip
  constructor
  · intro x hx
    rw [List.head?_reverse] at hx
    rcases getLast?_dropWhile isSpace ((l.dropWhile isSpace).reverse) with h0 | h1
    · rw [h0] at hx; simp at hx
    · rw [h1, List.getLast?_reverse] at hx
      exact head?_dropWhile_false isSpace l x hx
  · intro x hx
    rw [List.getLast?_reverse] at hx
    exact head?_dropWhile_false isSpace _ x hx

theorem pyStrip_idem (l : PyStr) : pyStrip (pyStrip l) = pyStrip l :=
  pyStrip_of_cleanEnds _ (cleanEnds_pyStrip l)

theorem pyStrip_map_of_spacePreserving (g : Nat → Nat)
    (hg : ∀ n, isSpace (g n) = isSpace n) (l : PyStr) :
    pyStrip (l.map g) = (pyStrip l).map g := by
  have hfg : (isSpace ∘ g) = isSpace := funext hg
  unfold pyStrip
  rw [List.dropWhile_map, hfg, ← List.map_reverse, List.dropWhile_map, hfg,
    ← List.map_reverse]

theorem mem_pyStrip (l : PyStr) {a : Nat} (h : a ∈ pyStrip l) : a ∈ l := by
  unfold pyStrip at h
  rw [List.mem_reverse] at h
  have h1 := (List.dropWhile_sublist isSpace (l := (l.dropWhile isSpace).reverse)).mem h
  rw [List.mem_reverse] at h1
  exact (List.dropWhile_sublist isSpace (l := l)).mem h1

/-! ## Idempotence and agreement of the two normalizers (C3, C4) -/

theorem alertsNormalizeTid_idem (x : PyStr) :
    alertsNormalizeTid (alertsNormalizeTid x) = alertsNormalizeTid x := by
  rw [alertsNormalizeTid_eq_map, alertsNormalizeTid_eq_map,
    pyStrip_map_of_spacePreserving normChar isSpace_normChar, pyStrip_idem,
    List.map_map]
  exact List.map_congr_left fun a _ => normChar_normChar a

/-- When the stripped input holds no `#` and no `/`, `lastfrag` is the
identity and the two normalizers coincide. -/
theorem ontologyNormalizeTid_eq_alerts (x : PyStr)
    (h35 : 35 ∉ pyStrip x) (h47 : 47 ∉ pyStrip x) :
    ontologyNormalizeTid x = alertsNormalizeTid x := by
  unfold ontologyNormalizeTid
  by_cases hx : x = []
  · subst hx
    simp [alertsNormalizeTid, pyStrip, pyUpper, pyReplaceDot]
  · rw [if_neg hx, lastfrag, if_neg h35, if_neg h47]
    rfl

theorem not_mem_alertsNormalizeTid_35 (x : PyStr) (h35 : 35 ∉ pyStrip x) :
    35 ∉ alertsNormalizeTid x := by
  rw [alertsNormalizeTid_eq_map]
  intro h
  rcases List.mem_map.1 h with ⟨b, hb, he⟩
  exact h35 (((normChar_eq_35_iff b).1 he) ▸ hb)

theorem not_mem_alertsNormalizeTid_47 (x : PyStr) (h47 : 47 ∉ pyStrip x) :
    47 ∉ alertsNormalizeTid x := by
  rw [alertsNormalizeTid_eq_map]
  intro h
  rcases List.mem_map.1 h with ⟨b, hb, he⟩
  exact h47 (((normChar_eq_47_iff b).1 he) ▸ hb)

theorem ontologyNormalizeTid_idem_of_no_frag (x : PyStr)
    (h35 : 35 ∉ x) (h47 : 47 ∉ x) :
    ontologyNormalizeTid (ontologyNormalizeTid x) = ontologyNormalizeTid x := by
  have hs35 : 35 ∉ pyStrip x := fun h => h35 (mem_pyStrip x h)
  have hs47 : 47 ∉ pyStrip x := fun h => h47 (mem_pyStrip x h)
  have e1 := ontologyNormalizeTid_eq_alerts x hs35 hs47
  rw [e1]
  have a35 : 35 ∉ pyStrip (alertsNormalizeTid x) :=
    fun h => not_mem_alertsNormalizeTid_35 x hs35 (mem_pyStrip _ h)
  have a47 : 47 ∉ pyStrip (alertsNormalizeTid x) :=
    fun h => not_mem_alertsNormalizeTid_47 x hs47 (mem_pyStrip _ h)
  rw [ontologyNormalizeTid_eq_alerts _ a35 a47]
  exact alertsNormalizeTid_idem x

/-- C3.  The spec claims the alert-side and graph-side normalizers are one
function; they differ on IRI-shaped input.  Amended: they agree on every
string whose stripped form holds no `#` and no `/`, and the graph-side
normalizer (alone) satisfies both of the spec's example equations. -/
theorem claim_C3_normalizers_agree_no_frag :
    (∀ x : PyStr, 35 ∉ pyStrip x → 47 ∉ pyStrip x →
      alertsNormalizeTid x = ontologyNormalizeTid x) ∧
    ontologyNormalizeTid (pyStr "t1059.001") = pyStr "T1059_001" ∧
    ontologyNormalizeTid (pyStr "http://x/ns#t1190") = pyStr "T1190" ∧
    alertsNormalizeTid (pyStr "t1059.001") = pyStr "T1059_001" := by
  refine ⟨fun x h35 h47 => (ontologyNormalizeTid_eq_alerts x h35 h47).symm, ?_, ?_, ?_⟩
  · decide
  · decide
  · decide

/-- C3, witness: the agreement applies at the concrete input "t1059.001". -/
theorem claim_C3_witness :
    alertsNormalizeTid (pyStr "t1059.001") = ontologyNormalizeTid (pyStr "t1059.001") :=
  claim_C3_normalizers_agree_no_frag.1 (pyStr "t1059.001") (by decide) (by decide)

/-- C3, counterexample: on the spec's own IRI example the alert-side
normalizer does not reduce the IRI, so the two normalizers differ and the
alert side misses the required equation. -/
theorem claim_C3_counterexample :
    alertsNormalizeTid (pyStr "http://x/ns#t1190")
      ≠ ontologyNormalizeTid (pyStr "http://x/ns#t1190") ∧
    alertsNormalizeTid (pyStr "http://x/ns#t1190") ≠ pyStr "T1190" := by
  decide

/-- C4.  The spec claims `normalize` is idempotent on all strings.  The
graph-side normalizer is not (see the counterexample).  Amended: the
alert-side normalizer is idempotent on every string, and the graph-side
normalizer is idempotent on every string holding no `#` and no `/`. -/
theorem claim_C4_normalize_idempotent :
    (∀ x : PyStr, alertsNormalizeTid (alertsNormalizeTid x) = alertsNormalizeTid x) ∧
    (∀ x : PyStr, 35 ∉ x → 47 ∉ x →
      ontologyNormalizeTid (ontologyNormalizeTid x) = ontologyNormalizeTid x) :=
  ⟨alertsNormalizeTid_idem, ontologyNormalizeTid_idem_of_no_frag⟩

/-- C4, witness at the concrete inputs "t1059.001" and " T1190 ". -/
theorem claim_C4_witness :
    ontologyNormalizeTid (ontologyNormalizeTid (pyStr "t1059.001"))
      = ontologyNormalizeTid (pyStr "t1059.001") ∧
    alertsNormalizeTid (alertsNormalizeTid (pyStr " T1190 "))
      = alertsNormalizeTid (pyStr " T1190 ") :=
  ⟨claim_C4_normalize_idempotent.2 (pyStr "t1059.001") (by decide) (by decide),
   claim_C4_normalize_idempotent.1 (pyStr " T1190 ")⟩

/-- C4, counterexample: the graph-side normalizer is not idempotent on
"a#b/c" (first pass keeps "B/C", the second reduces it to "C"). -/
theorem claim_C4_counterexample :
    ontologyNormalizeTid (ontologyNormalizeTid (pyStr "a#b/c"))
      ≠ ontologyNormalizeTid (pyStr "a#b/c") := by
  decide

/-! ## Correlation paths (C1, C6) -/

/-- C6.  An empty identifier list short-circuits to an empty result for
every graph: the function never reaches either query path. -/
theorem claim_C6_empty_query_empty_result (g : RGraph) :
    getIncidentsByTech g [] = [] := rfl

theorem afterFirst_append_of_not_mem (c : Nat) (p f : List Nat) (hp : c ∉ p) :
    afterFirst c (p ++ c :: f) = f := by
  induction p with
  | nil => simp [afterFirst]
  | cons x xs ih =>
    have hx : x ≠ c := fun h => hp (h ▸ List.mem_cons_self x xs)
    have hxs : c ∉ xs := fun h => hp (List.mem_cons_of_mem x h)
    simp only [List.cons_append, afterFirst, if_neg hx]
    exact ih hxs

theorem afterFirst_eq_nil_of_not_mem (c : Nat) (l : List Nat) (h : c ∉ l) :
    afterFirst c l = [] := by
  induction l with
  | nil => rfl
  | cons x xs ih =>
    have hx : x ≠ c := fun e => h (e ▸ List.mem_cons_self x xs)
    simp only [afterFirst, if_neg hx]
    exact ih fun e => h (List.mem_cons_of_mem x e)

theorem afterFirst_append_of_mem (c : Nat) (p r : List Nat) (hc : c ∈ p) :
    afterFirst c (p ++ r) = afterFirst c p ++ r := by
  induction p with
  | nil => simp at hc
  | cons x xs ih =>
    by_cases hx : x = c
    · simp [afterFirst, hx]
    · have hcs : c ∈ xs := by
        rcases List.mem_cons.1 hc with h | h
        · exact absurd h.symm hx
        · exact h
      simp only [List.cons_append, afterFirst, if_neg hx]
      exact ih hcs

theorem afterLast_append_of_not_mem (c : Nat) (q f : List Nat) (hf : c ∉ f) :
    afterLast c (q ++ c :: f) = f := by
  induction q with
  | nil => simp [afterLast, hf]
  | cons x xs ih =>
    have hmem : c ∈ xs ++ c :: f := List.mem_append_right xs (List.mem_cons_self c f)
    simpa [afterLast, hmem] using ih

theorem pyStrip_append_sep (p f : PyStr) (hf : ∀ c ∈ f, isSpace c = false) :
    pyStrip (p ++ 35 :: f) = p.dropWhile isSpace ++ 35 :: f := by
  unfold pyStrip
  have h1 : (p ++ 35 :: f).dropWhile isSpace = p.dropWhile isSpace ++ 35 :: f := by
    rw [List.dropWhile_append]
    split
    · rename_i hcond
      have hpe : p.dropWhile isSpace = [] := by
        cases hdp : p.dropWhile isSpace with
        | nil => rfl
        | cons a as => rw [hdp] at hcond; simp at hcond
      rw [hpe, List.nil_append]
      exact dropWhile_eq_self_of_head _ _ (by
        intro x hx
        simp only [List.head?_cons, Option.mem_def, Option.some.injEq] at hx
        subst hx
        decide)
    · rfl
  rw [h1]
  have h2 : (p.dropWhile isSpace ++ 35 :: f).reverse.dropWhile isSpace
      = (p.dropWhile isSpace ++ 35 :: f).reverse := by
    apply dropWhile_eq_self_of_head
    intro x hx
    rw [List.head?_reverse, List.getLast?_append] at hx
    have h3 : ∃ y, (35 :: f).getLast? = some y ∧ isSpace y = false := by
      cases hfl : f.getLast? with
      | none =>
        refine ⟨35, ?_, by decide⟩
        rw [List.getLast?_cons, hfl]
        rfl
      | some z =>
        refine ⟨z, ?_, hf z (List.mem_of_getLast?_eq_some hfl)⟩
        rw [List.getLast?_cons, hfl]
        rfl
    obtain ⟨y, hy, hys⟩ := h3
    rw [hy, Option.or_some] at hx
    simp only [Option.mem_def, Option.some.injEq] at hx
    subst hx
    exact hys
  rw [h2, List.reverse_reverse]

theorem pyUpper_ontologyNormalizeTid (raw : PyStr) :
    pyUpper (ontologyNormalizeTid raw) = ontologyNormalizeTid raw := by
  unfold ontologyNormalizeTid
  split
  · rfl
  · rw [replUp_eq_map]
    unfold pyUpper
    rw [List.map_map]
    exact List.map_congr_left fun a _ => upCode_normChar a

theorem pyUpper_map_replDot (f : PyStr) :
    pyUpper (f.map replDot) = f.map normChar := by
  unfold pyUpper
  rw [List.map_map]
  exact List.map_congr_left fun a _ => upCode_replDot_comm a

theorem not_mem_pyLower_35 (tid : PyStr) (h35 : 35 ∉ tid) : 35 ∉ pyLower tid := by
  intro h
  rcases List.mem_map.1 h with ⟨b, hb, he⟩
  exact h35 (((lowCode_eq_35_iff b).1 he) ▸ hb)

/-- The central per-technique equivalence: on a well-formed technique IRI
and a non-empty, `#`-free identifier produced by the normalizer, the SPARQL
filter of the primary path accepts exactly when the Python normalization of
the fallback path matches. -/
theorem sparqlFilterMatch_iff (t tid : PyStr) (hw : WellFormedTech t)
    (him : ∃ raw, tid = ontologyNormalizeTid raw) (hne : tid ≠ []) (h35 : 35 ∉ tid) :
    sparqlFilterMatch t tid = true ↔ ontologyNormalizeTid t = tid := by
  obtain ⟨p, f, rfl, hp35, hf35, hf47, hfsp⟩ := hw
  obtain ⟨raw, hraw⟩ := him
  have htid_up : pyUpper tid = tid := hraw ▸ pyUpper_ontologyNormalizeTid raw
  have ht_ne : p ++ 35 :: f ≠ [] := by simp
  have hstrip := pyStrip_append_sep p f hfsp
  have hont : ontologyNormalizeTid (p ++ 35 :: f) = f.map normChar := by
    unfold ontologyNormalizeTid
    rw [if_neg ht_ne, hstrip]
    unfold lastfrag
    rw [if_pos (List.mem_append_right _ (List.mem_cons_self 35 f)),
      afterLast_append_of_not_mem 35 _ f hf35]
    exact replUp_eq_map f
  have hH : sparqlNormH (p ++ 35 :: f) = f.map replDot := by
    unfold sparqlNormH
    rw [afterFirst_append_of_not_mem 35 p f hp35]
    rfl
  have hs_false : pyLower (sparqlNormS (p ++ 35 :: f)) ≠ pyLower tid := by
    by_cases hc : 47 ∈ p
    · have h35mem : (35 : Nat) ∈ afterFirst 47 (p ++ 35 :: f) := by
        rw [afterFirst_append_of_mem 47 p (35 :: f) hc]
        exact List.mem_append_right _ (List.mem_cons_self 35 f)
      have hmem : (35 : Nat) ∈ pyLower (sparqlNormS (p ++ 35 :: f)) := by
        unfold sparqlNormS pyReplaceDot pyLower
        rw [List.map_map]
        refine List.mem_map.2 ⟨35, h35mem, ?_⟩
        decide
      intro heq
      rw [heq] at hmem
      exact not_mem_pyLower_35 tid h35 hmem
    · have h47t : 47 ∉ p ++ 35 :: f := by
        intro h
        rcases List.mem_append.1 h with h | h
        · exact hc h
        · rcases List.mem_cons.1 h with h | h
          · exact absurd h (by decide)
          · exact hf47 h
      unfold sparqlNormS
      rw [afterFirst_eq_nil_of_not_mem 47 _ h47t]
      intro heq
      have : tid = [] := by
        have := heq.symm
        unfold pyLower pyReplaceDot at this
        simpa using this
      exact hne this
  unfold sparqlFilterMatch
  simp only [Bool.or_eq_true, decide_eq_true_eq]
  constructor
  · rintro (hh | hs)
    · rw [hH, pyLower_eq_iff_pyUpper_eq, htid_up, pyUpper_map_replDot] at hh
      rw [hont]
      exact hh
    · exact absurd hs hs_false
  · intro h
    left
    rw [hH, pyLower_eq_iff_pyUpper_eq, htid_up, pyUpper_map_replDot]
    rw [hont] at h
    exact h

theorem mem_primaryQueryIncidents_iff (g : RGraph) (tn : List PyStr) (inc : PyStr) :
    inc ∈ primaryQueryIncidents g tn ↔ inc ∈ incidentNodes g ∧
      ∃ t ∈ coalescedTechs g inc, ∃ tid ∈ tn, sparqlFilterMatch t tid = true := by
  unfold primaryQueryIncidents
  rw [List.mem_dedup, List.mem_filter]
  simp [List.any_eq_true]

theorem mem_fallbackScanIncidents_iff (g : RGraph) (tn : List PyStr) (inc : PyStr) :
    inc ∈ fallbackScanIncidents g tn ↔ inc ∈ incidentNodes g ∧
      ∃ t ∈ techsFromIncident g inc, t ∈ tn := by
  unfold fallbackScanIncidents pySortedStrs
  rw [List.mem_insertionSort, List.mem_dedup, List.mem_filter]
  simp [List.any_eq_true]

theorem techsFromIncident_eq (g : RGraph) (inc : PyStr) :
    techsFromIncident g inc
      = (directTechs g inc ++ viaTechs g inc).map ontologyNormalizeTid := by
  unfold techsFromIncident directTechs viaTechs
  rw [List.map_append, List.map_flatMap]

/-- C1, amended.  The primary SPARQL path and the fallback scan return the
same incident set provided (a) every technique node reachable from an
incident is a `#`-fragment IRI whose fragment holds no `#`, `/` or
whitespace, (b) every normalized query identifier is non-empty and
`#`-free, and (c) an incident with materialized direct techniques never
matches only through its via-action techniques (`COALESCE` hides the
via-action binding whenever a direct one exists).  Without these provisos
the two paths disagree (see the counterexample). -/
theorem claim_C1_primary_fallback_agree (g : RGraph) (tn : List PyStr)
    (hwf : ∀ inc ∈ incidentNodes g, ∀ t ∈ directTechs g inc ++ viaTechs g inc,
      WellFormedTech t)
    (htids : ∀ tid ∈ tn, tid ≠ [] ∧ 35 ∉ tid ∧ ∃ raw, tid = ontologyNormalizeTid raw)
    (hmat : ∀ inc ∈ incidentNodes g, directTechs g inc ≠ [] →
      ∀ t ∈ viaTechs g inc, ontologyNormalizeTid t ∈ tn →
        ∃ td ∈ directTechs g inc, ontologyNormalizeTid td ∈ tn) :
    ∀ inc, inc ∈ primaryQueryIncidents g tn ↔ inc ∈ fallbackScanIncidents g tn := by
  intro inc
  rw [mem_primaryQueryIncidents_iff, mem_fallbackScanIncidents_iff]
  refine and_congr_right fun hin => ?_
  rw [techsFromIncident_eq]
  have hfilter : ∀ t ∈ directTechs g inc ++ viaTechs g inc,
      ((∃ tid ∈ tn, sparqlFilterMatch t tid = true) ↔ ontologyNormalizeTid t ∈ tn) := by
    intro t ht
    constructor
    · rintro ⟨tid, htid, hm⟩
      obtain ⟨h1, h2, h3⟩ := htids tid htid
      exact ((sparqlFilterMatch_iff t tid (hwf inc hin t ht) h3 h1 h2).1 hm) ▸ htid
    · intro hm
      obtain ⟨h1, h2, h3⟩ := htids _ hm
      exact ⟨ontologyNormalizeTid t, hm,
        (sparqlFilterMatch_iff t _ (hwf inc hin t ht) h3 h1 h2).2 rfl⟩
  constructor
  · rintro ⟨t, ht, hex⟩
    have htm : t ∈ directTechs g inc ++ viaTechs g inc := by
      unfold coalescedTechs at ht
      split at ht
      · exact List.mem_append_right _ ht
      · exact List.mem_append_left _ ht
    refine ⟨ontologyNormalizeTid t, List.mem_map_of_mem _ htm, (hfilter t htm).1 hex⟩
  · rintro ⟨u, hu, hun⟩
    rcases List.mem_map.1 hu with ⟨s, hs, rfl⟩
    rcases List.mem_append.1 hs with hsd | hsv
    · have hdne : directTechs g inc ≠ [] := List.ne_nil_of_mem hsd
      refine ⟨s, ?_, (hfilter s hs).2 hun⟩
      unfold coalescedTechs
      rw [if_neg hdne]
      exact hsd
    · by_cases hd : directTechs g inc = []
      · refine ⟨s, ?_, (hfilter s hs).2 hun⟩
        unfold coalescedTechs
        rw [if_pos hd]
        exact hsv
      · rcases hmat inc hin hd s hsv hun with ⟨td, htd, htdn⟩
        refine ⟨td, ?_, (hfilter td (List.mem_append_left _ htd)).2 htdn⟩
        unfold coalescedTechs
        rw [if_neg hd]
        exact htd

theorem wellFormedTech_of_b (t : PyStr) (h : wfTechB t = true) : WellFormedTech t := by
  unfold wfTechB at h
  simp only [Bool.and_eq_true, decide_eq_true_eq, List.all_eq_true] at h
  obtain ⟨⟨⟨h_in, h35⟩, h47⟩, hsp⟩ := h
  refine ⟨beforeFirst 35 t, afterFirst 35 t, ?_, ?_, h35, h47, fun c hc => by
    have := hsp c hc
    simpa using this⟩
  · clear h35 h47 hsp
    induction t with
    | nil => simp at h_in
    | cons x xs ih =>
      by_cases hx : x = 35
      · subst hx
        simp [beforeFirst, afterFirst]
      · have hxs : (35 : Nat) ∈ xs := by
          rcases List.mem_cons.1 h_in with h | h
          · exact absurd h.symm hx
          · exact h
        simp only [beforeFirst, afterFirst, if_neg hx, List.cons_append]
        rw [← ih hxs]
  · clear h35 h47 hsp
    induction t with
    | nil => simp at h_in
    | cons x xs ih =>
      by_cases hx : x = 35
      · subst hx
        simp [beforeFirst]
      · have hxs : (35 : Nat) ∈ xs := by
          rcases List.mem_cons.1 h_in with h | h
          · exact absurd h.symm hx
          · exact h
        simp only [beforeFirst, if_neg hx]
        intro hmem
        rcases List.mem_cons.1 hmem with h | h
        · exact hx h.symm
        · exact ih hxs h

/-- C1, witness: the amended equivalence applied to a concrete graph and
query that satisfy all three provisos. -/
theorem claim_C1_witness :
    (pyStr "v#i1" ∈ primaryQueryIncidents witGraph (normalizedQueryTids [pyStr "T1190"]))
      ↔ (pyStr "v#i1" ∈ fallbackScanIncidents witGraph (normalizedQueryTids [pyStr "T1190"])) := by
  refine claim_C1_primary_fallback_agree witGraph (normalizedQueryTids [pyStr "T1190"])
    ?_ ?_ ?_ (pyStr "v#i1")
  · intro inc hinc t ht
    refine wellFormedTech_of_b t ?_
    have hb : ∀ inc ∈ incidentNodes witGraph,
        ∀ t ∈ directTechs witGraph inc ++ viaTechs witGraph inc, wfTechB t = true := by
      decide
    exact hb inc hinc t ht
  · intro tid htid
    have e : normalizedQueryTids [pyStr "T1190"] = [pyStr "T1190"] := by decide
    rw [e, List.mem_singleton] at htid
    subst htid
    exact ⟨by decide, by decide, pyStr "T1190", by decide⟩
  · intro inc hinc hdne t htv
    have e : ∀ inc ∈ incidentNodes witGraph, viaTechs witGraph inc = [] := by decide
    rw [e inc hinc] at htv
    simp at htv

/-- C1, counterexample: on `cexGraph` with query {"T1190"} the fallback
scan returns incident `v#i1` (matched through its via-action technique)
while the primary SPARQL path, which returns non-empty rows, does not. -/
theorem claim_C1_counterexample :
    pyStr "v#i1" ∈ fallbackScanIncidents cexGraph (normalizedQueryTids [pyStr "T1190"]) ∧
    pyStr "v#i1" ∉ primaryQueryIncidents cexGraph (normalizedQueryTids [pyStr "T1190"]) ∧
    primaryQueryIncidents cexGraph (normalizedQueryTids [pyStr "T1190"]) ≠ [] := by
  refine ⟨by decide, by decide, by decide⟩

/-! ## Retrieval index (C7, C8, C10) -/

theorem length_insertDesc (x : RagResult) (l : List RagResult) :
    (insertDesc x l).length = l.length + 1 := by
  induction l with
  | nil => rfl
  | cons y ys ih =>
    unfold insertDesc
    split
    · simp [ih]
    · simp

theorem length_foldl_insertDesc :
    ∀ (l acc : List RagResult),
      (l.foldl (fun a x => insertDesc x a) acc).length = acc.length + l.length := by
  intro l
  induction l with
  | nil => intro acc; simp
  | cons x xs ih =>
    intro acc
    rw [List.foldl_cons, ih, length_insertDesc]
    simp only [List.length_cons]
    omega

theorem length_sortDesc (l : List RagResult) : (sortDesc l).length = l.length := by
  unfold sortDesc
  rw [length_foldl_insertDesc]
  simp

theorem length_pySliceTo_pos (k : Int) (hk : 0 ≤ k) (l : List RagResult) (hl : l ≠ []) :
    1 ≤ (pySliceTo (effTopK k) l).length := by
  have he : 1 ≤ (effTopK k).toNat := by
    unfold effTopK
    split <;> omega
  have hnot : ¬ effTopK k < 0 := by
    unfold effTopK
    split <;> omega
  unfold pySliceTo
  rw [if_neg hnot, List.length_take]
  have hp : 0 < l.length := List.length_pos.2 hl
  omega

theorem fallbackPad_ne_nil (scored : List RagResult) (entries : List RagEntry)
    (he : entries ≠ []) : fallbackPad scored entries ≠ [] := by
  unfold fallbackPad
  cases scored with
  | nil =>
    cases entries with
    | nil => exact absurd rfl he
    | cons e0 es => simp
  | cons s ss => simp

/-- C7.  On an index built from a non-empty corpus, `search` with a
non-negative `top_k` always returns at least one result, and when no
document scores strictly positively it returns exactly the first document
with score 0.0. -/
theorem claim_C7_nonempty_corpus_always_results (documents : List RagDoc)
    (query : PyStr) (k : Int) (hne : documents ≠ []) (hk : 0 ≤ k) :
    1 ≤ (simpleRAGSearch documents query k).length ∧
    ((∀ e ∈ mkEntries documents,
        scorePos (cosineScore (ragQueryVec query) (normSqOf (ragQueryVec query))
          e.vec e.normSq) = false) →
      ∃ e0 rest, mkEntries documents = e0 :: rest ∧
        simpleRAGSearch documents query k
          = [⟨e0.title, e0.content, pySnippet e0.content, zeroScore⟩]) := by
  have hent : mkEntries documents ≠ [] := by
    unfold mkEntries
    intro h
    exact hne (List.map_eq_nil_iff.1 h)
  constructor
  · unfold simpleRAGSearch ragSearch
    rw [if_neg hent]
    apply length_pySliceTo_pos k hk
    intro h
    have := length_sortDesc (fallbackPad (scoredResults (mkEntries documents) query)
      (mkEntries documents))
    rw [h] at this
    exact fallbackPad_ne_nil _ _ hent (List.length_eq_zero.1 this.symm)
  · intro hall
    obtain ⟨e0, rest, hrest⟩ : ∃ e0 rest, mkEntries documents = e0 :: rest := by
      cases h : mkEntries documents with
      | nil => exact absurd h hent
      | cons a l => exact ⟨a, l, rfl⟩
    refine ⟨e0, rest, hrest, ?_⟩
    have hsc : scoredResults (mkEntries documents) query = [] := by
      unfold scoredResults
      rw [List.filterMap_eq_nil_iff]
      intro e he
      simp only
      rw [if_neg]
      rw [hall e he]
      simp
    unfold simpleRAGSearch ragSearch
    rw [if_neg hent, hsc, hrest]
    have hpad : fallbackPad [] (e0 :: rest)
        = [⟨e0.title, e0.content, pySnippet e0.content, zeroScore⟩] := rfl
    rw [hpad]
    have hsort : sortDesc [(⟨e0.title, e0.content, pySnippet e0.content, zeroScore⟩ : RagResult)]
        = [⟨e0.title, e0.content, pySnippet e0.content, zeroScore⟩] := rfl
    rw [hsort]
    unfold pySliceTo
    have hnot : ¬ effTopK k < 0 := by
      unfold effTopK
      split <;> omega
    have he1 : 1 ≤ (effTopK k).toNat := by
      unfold effTopK
      split <;> omega
    rw [if_neg hnot]
    cases hn : (effTopK k).toNat with
    | zero => omega
    | succ m => simp

/-- C7, witness: a one-document corpus and a disjoint query return exactly
the first document with score 0.0 (and at least one result). -/
theorem claim_C7_witness :
    1 ≤ (simpleRAGSearch [⟨some (pyStr "A"), some (pyStr "abc")⟩] (pyStr "zzz") 3).length ∧
    ((∀ e ∈ mkEntries [⟨some (pyStr "A"), some (pyStr "abc")⟩],
        scorePos (cosineScore (ragQueryVec (pyStr "zzz"))
          (normSqOf (ragQueryVec (pyStr "zzz"))) e.vec e.normSq) = false) →
      ∃ e0 rest, mkEntries [⟨some (pyStr "A"), some (pyStr "abc")⟩] = e0 :: rest ∧
        simpleRAGSearch [⟨some (pyStr "A"), some (pyStr "abc")⟩] (pyStr "zzz") 3
          = [⟨e0.title, e0.content, pySnippet e0.content, zeroScore⟩]) :=
  claim_C7_nonempty_corpus_always_results [⟨some (pyStr "A"), some (pyStr "abc")⟩]
    (pyStr "zzz") 3 (by decide) (by decide)

/-- C10.  An index built from an empty corpus returns the empty list for
every query and every `top_k`, without raising. -/
theorem claim_C10_empty_corpus_empty_result (query : PyStr) (topK : Int) :
    simpleRAGSearch [] query topK = [] := rfl

theorem beforeFirst_split (c : Nat) (l : List Nat) (h : c ∈ l) :
    l = beforeFirst c l ++ c :: afterFirst c l := by
  induction l with
  | nil => simp at h
  | cons x xs ih =>
    by_cases hx : x = c
    · subst hx
      simp [beforeFirst, afterFirst]
    · have hxs : c ∈ xs := by
        rcases List.mem_cons.1 h with h0 | h0
        · exact absurd h0.symm hx
        · exact h0
      simp only [beforeFirst, afterFirst, if_neg hx, List.cons_append]
      exact congrArg (List.cons x) (ih hxs)

theorem beforeLast_split (c : Nat) (l : List Nat) (h : c ∈ l) :
    ∃ rest, l = beforeLast c l ++ c :: rest := by
  have hr : c ∈ l.reverse := List.mem_reverse.2 h
  refine ⟨(beforeFirst c l.reverse).reverse, ?_⟩
  unfold beforeLast
  rw [if_pos h]
  have hs := congrArg List.reverse (beforeFirst_split c l.reverse hr)
  rw [List.reverse_reverse] at hs
  have he : (beforeFirst c l.reverse ++ c :: afterFirst c l.reverse).reverse
      = (afterFirst c l.reverse).reverse ++ c :: (beforeFirst c l.reverse).reverse := by
    rw [List.reverse_append, List.reverse_cons, List.append_assoc]
    simp
  exact hs.trans he

theorem afterFirst_length_le (c : Nat) (l : List Nat) :
    (afterFirst c l).length ≤ l.length := by
  induction l with
  | nil => simp [afterFirst]
  | cons x xs ih =>
    unfold afterFirst
    split
    · simp
    · simp
      omega

theorem beforeLast_length_le (c : Nat) (l : List Nat) :
    (beforeLast c l).length ≤ l.length := by
  unfold beforeLast
  split
  · rw [List.length_reverse]
    have := afterFirst_length_le c l.reverse
    rw [List.length_reverse] at this
    exact this
  · exact Nat.le_refl _

/-- C8, amended.  The snippet never exceeds the 260-character limit plus
the one-character ellipsis; and whenever the first 260 characters contain a
space, the truncation cut falls immediately before a space of the source
text, so no word is split.  (Without a space in the prefix the code cuts
mid-word; see the counterexample.) -/
theorem claim_C8_snippet_bounds (text : PyStr) :
    (pySnippet text).length ≤ 261 ∧ (32 ∈ text.take 260 → snippetRespectsWords text) := by
  by_cases hlen : text.length ≤ 260
  · refine ⟨?_, fun _ => Or.inl hlen⟩
    unfold pySnippet
    rw [if_pos hlen]
    omega
  · have hsn : pySnippet text = beforeLast 32 (text.take 260) ++ [8230] := by
      unfold pySnippet
      rw [if_neg hlen]
    constructor
    · rw [hsn, List.length_append]
      have h1 := beforeLast_length_le 32 (text.take 260)
      have h2 : (text.take 260).length ≤ 260 := by
        rw [List.length_take]
        omega
      simp only [List.length_cons, List.length_nil]
      omega
    · intro hsp
      right
      obtain ⟨rest, hr⟩ := beforeLast_split 32 (text.take 260) hsp
      rw [hsn]
      generalize hcut : beforeLast 32 (text.take 260) = cut at hr ⊢
      rw [List.length_append]
      simp only [List.length_cons, List.length_nil]
      have hidx : cut.length + (0 + 1) - 1 = cut.length := by omega
      rw [hidx]
      have hlen2 := congrArg List.length hr
      rw [List.length_append, List.length_cons] at hlen2
      have htklen : (text.take 260).length = 260 := by
        rw [List.length_take]
        omega
      have hlt : cut.length < 260 := by omega
      have step1 : text.get? cut.length = (text.take 260).get? cut.length :=
        (List.get?_take hlt).symm
      rw [step1, hr, List.get?_append_right (Nat.le_refl _)]
      simp

/-- C8, witness: a long text whose 260-character prefix contains a space is
cut at a space. -/
theorem claim_C8_witness :
    snippetRespectsWords (pyStr "aa " ++ List.replicate 300 98) :=
  (claim_C8_snippet_bounds (pyStr "aa " ++ List.replicate 300 98)).2 (by decide)

set_option maxRecDepth 4000 in
/-- C8, counterexample: a 261-character run of letters has no space in its
prefix, so the snippet cuts it mid-word. -/
theorem claim_C8_counterexample :
    ¬ snippetRespectsWords (List.replicate 261 97) := by
  unfold snippetRespectsWords
  decide

/-! ## Alert ingestion (C2) -/

/-- C2, amended.  A fully empty (or whitespace-only) text payload yields
the empty batch `{}`; but a non-empty unparseable top-level payload
propagates the parse error to the caller — `json.loads(txt)` on line 58 of
alerts.py is not guarded (only NDJSON lines are), so `load` is not
raise-free. -/
theorem claim_C2_empty_payload_empty_batch (s : PyStr) (h : pyStrip s = []) :
    loadWazuhAlertsAny (.text s) = .ok (.obj []) := by
  unfold loadWazuhAlertsAny
  simp [h]

/-- C2, witness at the whitespace payload " \n ". -/
theorem claim_C2_witness :
    loadWazuhAlertsAny (.text (pyStr " \n ")) = .ok (.obj []) :=
  claim_C2_empty_payload_empty_batch (pyStr " \n ") (by decide)

/-- C2, counterexample: the unparseable non-empty payload "x" makes `load`
propagate a JSON decode error; it does not return an empty batch (nor any
value at all). -/
theorem claim_C2_counterexample :
    loadWazuhAlertsAny (.text (pyStr "x")) = .error .jsonDecodeError ∧
    ∀ v : JVal, loadWazuhAlertsAny (.text (pyStr "x")) ≠ .ok v :=
  ⟨rfl, fun _ h => nomatch h⟩

/-! ## Identifier extraction: sortedness and uniqueness (C5) -/

theorem lexLe_total : ∀ a b : PyStr, lexLe a b = true ∨ lexLe b a = true := by
  intro a
  induction a with
  | nil => intro b; exact Or.inl rfl
  | cons x xs ih =>
    intro b
    cases b with
    | nil => exact Or.inr rfl
    | cons y ys =>
      rcases Nat.lt_trichotomy x y with h | h | h
      · left
        simp [lexLe, h]
      · subst h
        rcases ih ys with h1 | h1
        · left
          simp [lexLe, Nat.lt_irrefl, h1]
        · right
          simp [lexLe, Nat.lt_irrefl, h1]
      · right
        simp [lexLe, h]

theorem lexLe_trans :
    ∀ a b c : PyStr, lexLe a b = true → lexLe b c = true → lexLe a c = true := by
  intro a
  induction a with
  | nil => intro b c _ _; rfl
  | cons x xs ih =>
    intro b c hab hbc
    cases b with
    | nil => simp [lexLe] at hab
    | cons y ys =>
      cases c with
      | nil => simp [lexLe] at hbc
      | cons z zs =>
        simp only [lexLe] at hab hbc ⊢
        split_ifs at hab hbc ⊢ <;>
          first
            | rfl
            | omega
            | exact ih ys zs hab hbc

instance : IsTotal PyStr lexLeRel := ⟨lexLe_total⟩

instance : IsTrans PyStr lexLeRel := ⟨fun a b c => lexLe_trans a b c⟩

theorem pySortedStrs_sorted (l : List PyStr) : List.Sorted lexLeRel (pySortedStrs l) :=
  List.sorted_insertionSort lexLeRel l

theorem pySortedStrs_perm (l : List PyStr) : List.Perm (pySortedStrs l) l :=
  List.perm_insertionSort lexLeRel l

theorem mem_setAdd (a : List PyStr) (x t : PyStr) :
    t ∈ setAdd a x ↔ t ∈ a ∨ t = x := by
  unfold setAdd
  split
  · rename_i hx
    constructor
    · exact Or.inl
    · rintro (h | rfl)
      · exact h
      · exact hx
  · simp

theorem setAdd_nodup (a : List PyStr) (x : PyStr) (h : a.Nodup) : (setAdd a x).Nodup := by
  unfold setAdd
  split
  · exact h
  · rename_i hx
    rw [List.nodup_append]
    refine ⟨h, List.nodup_singleton x, ?_⟩
    intro b hb hbx
    rw [List.mem_singleton] at hbx
    exact hx (hbx ▸ hb)

theorem foldl_preserves_nodup {β : Type} (f : List PyStr → β → List PyStr)
    (hf : ∀ a b, a.Nodup → (f a b).Nodup) :
    ∀ (l : List β) (acc : List PyStr), acc.Nodup → (l.foldl f acc).Nodup := by
  intro l
  induction l with
  | nil => intro acc h; exact h
  | cons x xs ih =>
    intro acc h
    rw [List.foldl_cons]
    exact ih (f acc x) (hf acc x h)

theorem collectIdListStep_nodup (a : List PyStr) (v : JVal) (h : a.Nodup) :
    (collectIdListStep a v).Nodup := by
  unfold collectIdListStep
  split <;> first | exact setAdd_nodup _ _ h | exact h

theorem collectAliasListStep_nodup (a : List PyStr) (v : JVal) (h : a.Nodup) :
    (collectAliasListStep a v).Nodup :=
  setAdd_nodup _ _ h

theorem collectTechArr_nodup (acc : List PyStr) (o : Option JVal) (h : acc.Nodup) :
    (collectTechArr acc o).Nodup := by
  unfold collectTechArr
  split
  · apply foldl_preserves_nodup
    · intro a b hn
      dsimp only
      split <;> first | exact setAdd_nodup _ _ hn | exact hn
    · exact h
  · exact h

theorem collectText_nodup (acc : List PyStr) (o : Option JVal) (h : acc.Nodup) :
    (collectText acc o).Nodup := by
  unfold collectText
  split
  · exact foldl_preserves_nodup _ (fun a b hn => setAdd_nodup _ _ hn) _ _ h
  · exact h

theorem except_bind_ok {α β : Type} {e : Except PyErr α} {f : α → Except PyErr β} {out : β}
    (h : (e >>= f) = .ok out) : ∃ a, e = .ok a ∧ f a = .ok out := by
  cases e with
  | error err => simp [Bind.bind, Except.bind] at h
  | ok a =>
    refine ⟨a, rfl, ?_⟩
    simpa [Bind.bind, Except.bind] using h

theorem collectIds_nodup (acc : List PyStr) (o : Option JVal) (h : acc.Nodup) :
    (collectIds acc o).Nodup := by
  unfold collectIds
  split
  · exact setAdd_nodup _ _ h
  · exact foldl_preserves_nodup _ (fun a b hn => collectIdListStep_nodup a b hn) _ _ h
  · exact h

theorem collectAlias_nodup (acc : List PyStr) (o : Option JVal) (out : List PyStr)
    (h : acc.Nodup) (he : collectAlias acc o = .ok out) : out.Nodup := by
  unfold collectAlias at he
  split at he
  · split at he
    · exact absurd he (by simp)
    · split at he
      · exact absurd he (by simp)
      · split at he
        · exact absurd he (by simp)
        · rw [Except.ok.injEq] at he
          subst he
          exact setAdd_nodup _ _ h
        · rw [Except.ok.injEq] at he
          subst he
          exact foldl_preserves_nodup _ (fun a b hn => collectAliasListStep_nodup a b hn) _ _ h
        · rw [Except.ok.injEq] at he
          subst he
          exact h
  · rw [Except.ok.injEq] at he
    subst he
    exact h

theorem collectNode_nodup (acc : List PyStr) (node : JVal) (out : List PyStr)
    (h : acc.Nodup) (he : collectNode acc node = .ok out) : out.Nodup := by
  unfold collectNode at he
  split at he
  · split at he
    · exact absurd he (by simp)
    · split at he
      · exact absurd he (by simp)
      · split at he
        · exact absurd he (by simp)
        · split at he
          · exact absurd he (by simp)
          · split at he
            · exact absurd he (by simp)
            · rename_i acc7 he6
              refine collectAlias_nodup _ _ _ ?_ he
              refine collectAlias_nodup _ _ _ ?_ he6
              exact collectText_nodup _ _ (collectText_nodup _ _ (collectText_nodup _ _
                (collectTechArr_nodup _ _ (collectTechArr_nodup _ _
                  (collectIds_nodup _ _ h)))))
  · rw [Except.ok.injEq] at he
    subst he
    exact h

theorem foldlM_collectNode_nodup :
    ∀ (nodes : List JVal) (acc : List PyStr), acc.Nodup →
      ∀ out, nodes.foldlM collectNode acc = .ok out → out.Nodup := by
  intro nodes
  induction nodes with
  | nil =>
    intro acc h out he
    simp only [List.foldlM_nil, pure, Except.pure, Except.ok.injEq] at he
    subst he
    exact h
  | cons x xs ih =>
    intro acc h out he
    rw [List.foldlM_cons] at he
    obtain ⟨acc2, hx, he2⟩ := except_bind_ok he
    exact ih acc2 (collectNode_nodup acc x acc2 h hx) out he2

theorem collectTidsFromAny_nodup (obj : JVal) (out : List PyStr)
    (he : collectTidsFromAny obj = .ok out) : out.Nodup :=
  foldlM_collectNode_nodup (iterJson obj) [] List.nodup_nil out he

theorem extendUniqueFromRecord_nodup (acc : List PyStr) (src : JVal) (out : List PyStr)
    (h : acc.Nodup) (he : extendUniqueFromRecord acc src = .ok out) : out.Nodup := by
  unfold extendUniqueFromRecord at he
  split at he
  · split at he
    · exact absurd he (by simp)
    · rw [Except.ok.injEq] at he
      subst he
      exact foldl_preserves_nodup _ (fun a b hn => setAdd_nodup _ _ hn) _ _ h
  · rw [Except.ok.injEq] at he
    subst he
    exact h

theorem foldlM_extendUnique_nodup :
    ∀ (items : List JVal) (acc : List PyStr), acc.Nodup →
      ∀ out, items.foldlM extendUniqueFromRecord acc = .ok out → out.Nodup := by
  intro items
  induction items with
  | nil =>
    intro acc h out he
    simp only [List.foldlM_nil, pure, Except.pure, Except.ok.injEq] at he
    subst he
    exact h
  | cons x xs ih =>
    intro acc h out he
    rw [List.foldlM_cons] at he
    obtain ⟨acc2, hx, he2⟩ := except_bind_ok he
    exact ih acc2 (extendUniqueFromRecord_nodup acc x acc2 h hx) out he2

theorem extractFromRecords_nodup (v : JVal) (out : List PyStr)
    (he : extractFromRecords v = .ok out) : out.Nodup := by
  unfold extractFromRecords at he
  split at he
  · exact absurd he (by simp)
  · exact foldlM_extendUnique_nodup _ [] List.nodup_nil out he

theorem extractRawTids_nodup (obj : JVal) (out : List PyStr)
    (he : extractRawTids obj = .ok out) : out.Nodup := by
  unfold extractRawTids at he
  split at he
  · split at he
    · split at he
      · exact extractFromRecords_nodup _ _ he
      · simp only [pure, Except.pure, Except.ok.injEq] at he
        subst he
        exact List.nodup_nil
    · split at he
      · split at he
        · exact extractFromRecords_nodup _ _ he
        · simp only [pure, Except.pure, Except.ok.injEq] at he
          subst he
          exact List.nodup_nil
      · exact collectTidsFromAny_nodup _ _ he
  · exact foldlM_extendUnique_nodup _ [] List.nodup_nil out he
  · simp only [pure, Except.pure, Except.ok.injEq] at he
    subst he
    exact List.nodup_nil

/-- C5.  Whenever extraction returns, the result is lexicographically
sorted with no duplicates; and the spec's concrete example evaluates to
["T1059_001", "T1190"].  (On certain malformed `fields`/`data` subtrees
the source raises instead of returning; sortedness and uniqueness hold for
every returned value.) -/
theorem claim_C5_extract_sorted_unique :
    (∀ (obj : JVal) (out : List PyStr), extractTechIdsUniversal obj = .ok out →
      List.Sorted lexLeRel out ∧ out.Nodup) ∧
    extractTechIdsUniversal
      (ruleMitreIdRecord [.str (pyStr "T1190"), .str (pyStr "T1059.001")])
      = .ok [pyStr "T1059_001", pyStr "T1190"] := by
  constructor
  · intro obj out he
    unfold extractTechIdsUniversal at he
    cases hr : extractRawTids obj with
    | error e => rw [hr] at he; simp [Except.map] at he
    | ok t =>
      rw [hr] at he
      simp only [Except.map, Except.ok.injEq] at he
      subst he
      exact ⟨pySortedStrs_sorted t,
        (pySortedStrs_perm t).symm.nodup (extractRawTids_nodup obj t hr)⟩
  · rfl

/-- C5, witness: the general sortedness statement applied to the spec's
example batch. -/
theorem claim_C5_witness :
    List.Sorted lexLeRel [pyStr "T1059_001", pyStr "T1190"] ∧
    List.Nodup [pyStr "T1059_001", pyStr "T1190"] :=
  claim_C5_extract_sorted_unique.1
    (ruleMitreIdRecord [.str (pyStr "T1190"), .str (pyStr "T1059.001")])
    [pyStr "T1059_001", pyStr "T1190"] rfl

/-! ## Extraction skips non-textual values — except on the alias paths (C9) -/

theorem iterJsonList_scalars (vs : List JVal) (h : ∀ v ∈ vs, isScalarJ v = true) :
    iterJsonList vs = [] := by
  induction vs with
  | nil => rfl
  | cons v rest ih =>
    have hv : isScalarJ v = true := h v (List.mem_cons_self v rest)
    have hrest := ih fun x hx => h x (List.mem_cons_of_mem v hx)
    have hone : iterJson v = [] := by
      cases v <;> first | rfl | (simp [isScalarJ] at hv)
    simp only [iterJsonList, hone, hrest, List.nil_append]

theorem iterJson_ruleMitreIdRecord (vs : List JVal) (h : ∀ v ∈ vs, isScalarJ v = true) :
    iterJson (ruleMitreIdRecord vs)
      = [ruleMitreIdRecord vs,
         .obj [(pyStr "mitre", .obj [(pyStr "id", .arr vs)])],
         .obj [(pyStr "id", .arr vs)]] := by
  unfold ruleMitreIdRecord
  simp only [iterJson, iterJsonKVs, iterJsonList_scalars vs h, List.append_nil,
    List.nil_append]

theorem collectTidsFromAny_ruleMitreIdRecord (vs : List JVal)
    (h : ∀ v ∈ vs, isScalarJ v = true) :
    collectTidsFromAny (ruleMitreIdRecord vs) = .ok (vs.foldl collectIdListStep []) := by
  unfold collectTidsFromAny
  rw [iterJson_ruleMitreIdRecord vs h]
  rfl

theorem iterJson_fieldsAliasRecord (vs : List JVal) (h : ∀ v ∈ vs, isScalarJ v = true) :
    iterJson (fieldsAliasRecord vs)
      = [fieldsAliasRecord vs,
         .obj [(pyStr "mitre", .obj [(pyStr "id", .arr vs)])],
         .obj [(pyStr "id", .arr vs)]] := by
  unfold fieldsAliasRecord
  simp only [iterJson, iterJsonKVs, iterJsonList_scalars vs h, List.append_nil,
    List.nil_append]

theorem mem_foldl_collectIdListStep :
    ∀ (vs : List JVal) (acc : List PyStr) (t : PyStr),
      t ∈ vs.foldl collectIdListStep acc →
      t ∈ acc ∨ ∃ v ∈ vs, isStrIntLike v = true ∧ t = alertsNormalizeTid (pyToStr v) := by
  intro vs
  induction vs with
  | nil => intro acc t ht; exact Or.inl ht
  | cons v rest ih =>
    intro acc t ht
    rw [List.foldl_cons] at ht
    rcases ih (collectIdListStep acc v) t ht with hin | ⟨w, hw, hwk, hwe⟩
    · cases hv : v with
      | str s =>
        rw [hv] at hin
        unfold collectIdListStep at hin
        rcases (mem_setAdd _ _ _).1 hin with h0 | h0
        · exact Or.inl h0
        · exact Or.inr ⟨.str s, List.mem_cons_self _ _, rfl, h0.trans rfl⟩
      | int i =>
        rw [hv] at hin
        unfold collectIdListStep at hin
        rcases (mem_setAdd _ _ _).1 hin with h0 | h0
        · exact Or.inl h0
        · exact Or.inr ⟨.int i, List.mem_cons_self _ _, rfl, h0.trans rfl⟩
      | bool b =>
        rw [hv] at hin
        unfold collectIdListStep at hin
        rcases (mem_setAdd _ _ _).1 hin with h0 | h0
        · exact Or.inl h0
        · exact Or.inr ⟨.bool b, List.mem_cons_self _ _, rfl, h0.trans rfl⟩
      | null => rw [hv] at hin; exact Or.inl hin
      | num raw => rw [hv] at hin; exact Or.inl hin
      | arr xs => rw [hv] at hin; exact Or.inl hin
      | obj kvs => rw [hv] at hin; exact Or.inl hin
    · exact Or.inr ⟨w, List.mem_cons_of_mem v hw, hwk, hwe⟩

/-- C9, amended.  On the structured `rule.mitre.id` path only `str` and
`int` values (Python counts `bool` as `int`) are ever normalized into the
result — every other value is skipped silently; but on the
`fields.*`/`data.*` alias paths a candidate list is stringified
element-wise with no type guard, so non-textual values are NOT skipped
there (see the counterexample). -/
theorem claim_C9_nonscalar_skipping :
    (∀ (vs : List JVal), (∀ v ∈ vs, isScalarJ v = true) →
      ∀ out, collectTidsFromAny (ruleMitreIdRecord vs) = .ok out →
        ∀ t ∈ out, ∃ v ∈ vs, isStrIntLike v = true ∧ t = alertsNormalizeTid (pyToStr v)) ∧
    (∀ (vs : List JVal), (∀ v ∈ vs, isScalarJ v = true) →
      collectTidsFromAny (fieldsAliasRecord vs)
        = .ok (vs.foldl collectAliasListStep [])) := by
  constructor
  · intro vs hs out he t ht
    rw [collectTidsFromAny_ruleMitreIdRecord vs hs, Except.ok.injEq] at he
    subst he
    rcases mem_foldl_collectIdListStep vs [] t ht with h0 | h0
    · simp at h0
    · exact h0
  · intro vs hs
    unfold collectTidsFromAny
    rw [iterJson_fieldsAliasRecord vs hs]
    rfl

/-- C9, witness: on a list holding a `null` and a string, only the string
is normalized through the `rule.mitre.id` path. -/
theorem claim_C9_witness :
    ∀ t ∈ [pyStr "T1059_001"],
      ∃ v ∈ [JVal.null, JVal.str (pyStr "t1059.001")],
        isStrIntLike v = true ∧ t = alertsNormalizeTid (pyToStr v) :=
  claim_C9_nonscalar_skipping.1 [JVal.null, JVal.str (pyStr "t1059.001")]
    (by
      intro v hv
      rcases List.mem_cons.1 hv with h | h
      · rw [h]; rfl
      · rw [List.mem_singleton.1 h]; rfl)
    [pyStr "T1059_001"] rfl

/-- C9, counterexample: through the `fields.mitre.id` alias path the
non-string, non-integer value `null` is stringified and normalized into
the output ("NONE"), not skipped. -/
theorem claim_C9_counterexample :
    extractTechIdsUniversal (fieldsAliasRecord [JVal.null]) = .ok [pyStr "NONE"] := rfl

end Spec2Proof
